import Mathlib

/-!
Verification of the MCTS Search Engine of the metaMinichess repository
(`src/learning/alpha_zero/distributed/mcts.py`).

The embedding is a direct shallow translation of the Python class `MCTS`:

* the mutable dictionaries `Qsa`, `Nsa`, `Ns`, `Ps`, `Es`, `Vs` become a
  `Tables` record of finite-support maps `key → Option value`, threaded
  explicitly through the recursion;
* Python floats become `ℚ`; the two float library calls that have no exact
  rational counterpart (`math.sqrt` in the UCB score and `x ** (1/temp)` in
  `getActionProb`) are modelled as explicit function parameters `sqrtQ` and
  `powQ` carried in `Args` — every claim below is independent of their
  actual float values, or states the needed algebraic facts about them as
  hypotheses;
* the external collaborators (`game`, `nnet`) are black-box structures, as
  the spec itself prescribes ("black-box access to those collaborators");
* the recursion of `MCTS.search` on `depth` is encoded structurally with a
  fuel argument that is always called with the canonical value
  `maxMoves - depth`: with this fuel, the `0` case fires exactly when
  `depth ≥ maxMoves`, i.e. exactly when the Python depth guard fires, so the
  encoding computes the same function as the source;
* the list of edges backed up by one simulation is returned as an extra
  ghost component (the last component of `searchAux`); `MCTS.search` is its
  projection and never depends on it.
-/

/-- `EPS = 1e-8`, the exploration constant of `mcts.py` line 8. -/
def EPS : ℚ := 1 / 100000000

/-- Pointwise update of a dictionary modelled as a function to `Option`. -/
def upd {α β : Type} [DecidableEq α] (f : α → Option β) (k : α) (v : β) :
    α → Option β :=
  fun x => if x = k then some v else f x

/-- The six statistics dictionaries of the `MCTS` class (`mcts.py` lines
19-24).  Edge keys pair the position string with an `ℤ` action index,
because the selection loop initializes `best_act = -1`. -/
structure Tables where
  Qsa : String × ℤ → Option ℚ
  Nsa : String × ℤ → Option ℕ
  Ns : String → Option ℕ
  Ps : String → Option (List ℚ)
  Es : String → Option ℚ
  Vs : String → Option (List Bool)

/-- Fresh statistics tables, as built by `MCTS.__init__`. -/
def emptyTables : Tables :=
  ⟨fun _ => none, fun _ => none, fun _ => none,
   fun _ => none, fun _ => none, fun _ => none⟩

/-- The Position Oracle (the `game` collaborator).  `getNextState` takes the
board, the player (always `1` in `mcts.py`) and the action index, and
returns the successor board together with the next player.  The Python
`type(self.game) == DarkChessGame` test becomes the flag `isDark`. -/
structure Game (S : Type) where
  getActionSize : ℕ
  stringRepresentation : S → String
  getGameEnded : S → ℚ
  getValidMoves : S → List Bool
  getNextState : S → ℤ → ℤ → S × ℤ
  getCanonicalForm : S → ℤ → S
  isDark : Bool
  getDarkness : S → ℤ → S

/-- The Evaluator collaborator: `predict(board) -> (policy, value)`. -/
structure NNet (S : Type) where
  predict : S → List ℚ × ℚ

/-- The `args` dictionary consumed by `MCTS`, plus the two float library
functions the source calls: `sqrtQ` models `math.sqrt`, and `powQ x t`
models the Python float expression `x ** (1. / t)`. -/
structure Args where
  numMCTSSims : ℕ
  cpuct : ℚ
  maxMoves : ℕ
  sqrtQ : ℚ → ℚ
  powQ : ℕ → ℚ → ℚ

/-- Lines 94-110 of `mcts.py`: mask the raw policy by the legal-move
vector (`self.Ps[s] * valids`). -/
def maskPolicy (ps : List ℚ) (valids : List Bool) : List ℚ :=
  List.zipWith (fun p vb => p * (if vb then 1 else 0)) ps valids

/-- Lines 94-110 of `mcts.py`: mask the raw policy and renormalize; if the
masked sum is not positive (`if (sum_Ps_s - 0) > 0` fails), add the valid
vector before renormalizing (the uniform-fallback path). -/
def maskAndNormalize (ps : List ℚ) (valids : List Bool) : List ℚ :=
  let masked := maskPolicy ps valids
  let sm := masked.sum
  if 0 < sm then masked.map (fun p => p / sm)
  else
    let added := List.zipWith (fun p vb => p + (if vb then 1 else 0)) masked valids
    added.map (fun p => p / added.sum)

/-- The upper-confidence score of lines 123-126 of `mcts.py`, for action
index `a` at position key `s` with stored prior `ps`. -/
def ucb (args : Args) (t : Tables) (s : String) (ps : List ℚ) (a : ℕ) : ℚ :=
  match t.Qsa (s, (a : ℤ)) with
  | some q =>
      q + args.cpuct * ps.getD a 0 * args.sqrtQ (((t.Ns s).getD 0 : ℚ)) /
        (1 + (((t.Nsa (s, (a : ℤ))).getD 0 : ℕ) : ℚ))
  | none => args.cpuct * ps.getD a 0 * args.sqrtQ (((t.Ns s).getD 0 : ℚ) + EPS)

/-- `u > cur_best` with `cur_best` initialized to `-inf` (line 117):
`none` stands for `-inf`, which every rational strictly exceeds. -/
def better (cb : Option ℚ) (u : ℚ) : Bool :=
  match cb with
  | none => true
  | some c => decide (c < u)

/-- The Python test `if valids[a]:` — entry `a` of the valid-move vector,
`false` out of range. -/
def legalAt (valids : List Bool) (a : ℕ) : Bool :=
  valids.getD a false

/-- The body of the selection loop of lines 121-130 of `mcts.py`, folded
over the remaining action indices with state `(cur_best, best_act)`. -/
def selAux (score : ℕ → ℚ) (valids : List Bool) :
    List ℕ → Option ℚ × ℤ → Option ℚ × ℤ
  | [], st => st
  | a :: rest, st =>
      if legalAt valids a then
        let u := score a
        if better st.1 u then selAux score valids rest (some u, (a : ℤ))
        else selAux score valids rest st
      else selAux score valids rest st

/-- Lines 117-132 of `mcts.py`: the action chosen for descent
(`best_act`, `-1` when no action is valid). -/
def selectAct (score : ℕ → ℚ) (valids : List Bool) (size : ℕ) : ℤ :=
  (selAux score valids (List.range size) (none, -1)).2

/-- Lines 71-72 of `mcts.py`: the depth guard writes the sentinel
`self.Es[s] = 1e-4`. -/
def guardStep (t : Tables) (s : String) : Tables :=
  { t with Es := upd t.Es s (1 / 10000) }

/-- Lines 75-76 of `mcts.py`: memoize `game.getGameEnded` the first time
the position key is seen (`if s not in self.Es`). -/
def memoStep (t : Tables) (s : String) (e : ℚ) : Tables :=
  if (t.Es s).isNone then { t with Es := upd t.Es s e } else t

/-- Lines 94-113 of `mcts.py`: store the masked prior policy, the valid
mask and a zero visit count for a freshly expanded leaf. -/
def expandStep (t : Tables) (s : String) (raw : List ℚ) (valids : List Bool) :
    Tables :=
  { t with
    Ps := upd t.Ps s (maskAndNormalize raw valids),
    Vs := upd t.Vs s valids,
    Ns := upd t.Ns s 0 }

/-- Lines 138-146 of `mcts.py`: the backup.  If edge `(s,a)` is in `Qsa`,
replace its value by the running mean and increment its count, else record
value `v` with count `1`; then increment `Ns[s]`. -/
def backupStep (t : Tables) (s : String) (a : ℤ) (v : ℚ) : Tables :=
  let t3 :=
    match t.Qsa (s, a) with
    | some q =>
        let n := (t.Nsa (s, a)).getD 0
        { t with
          Qsa := upd t.Qsa (s, a) (((n : ℚ) * q + v) / ((n : ℚ) + 1)),
          Nsa := upd t.Nsa (s, a) (n + 1) }
    | none =>
        { t with
          Qsa := upd t.Qsa (s, a) v,
          Nsa := upd t.Nsa (s, a) 1 }
  { t3 with Ns := upd t3.Ns s ((t3.Ns s).getD 0 + 1) }

/-- One simulation (`MCTS.search`, lines 51-147 of `mcts.py`), with the
recursion on `depth` encoded structurally by a fuel argument.  All call
sites use the canonical fuel `args.maxMoves - depth`; with that fuel the
`0` case fires exactly when `depth ≥ maxMoves`, and it performs exactly
what the source's depth guard (lines 71-73) performs.  The third returned
component is a ghost trace: the list of `(s, a)` edge keys backed up by
this call, root first; the source computes no such list and nothing in the
returned tables or value depends on it.  Dictionary reads the Python
performs on keys it has just written or that are always present on the
reachable states (`Es[s]` after memoization, `Vs[s]`, `Ps[s]`, `Ns[s]` and
`Nsa[(s,a)]` at an internal node — a `KeyError` otherwise) are modelled
with `Option.getD` defaults; the `TInv` invariant below shows the keys are
present whenever these reads execute. -/
def searchAux {S : Type} (g : Game S) (nnet : NNet S) (args : Args) :
    ℕ → Tables → S → ℕ → Tables × ℚ × List (String × ℤ)
  | 0, t, board, _ =>
      let s := g.stringRepresentation board
      (guardStep t s, -(1 / 10000), [])
  | fuel + 1, t, board, depth =>
      let s := g.stringRepresentation board
      if args.maxMoves ≤ depth then
        (guardStep t s, -(1 / 10000), [])
      else
        let t1 := memoStep t s (g.getGameEnded board)
        let e := (t1.Es s).getD 0
        if e ≠ 0 then (t1, -e, [])
        else if (t1.Ps s).isNone then
          let pv := if g.isDark then nnet.predict (g.getDarkness board 1)
                    else nnet.predict board
          (expandStep t1 s pv.1 (g.getValidMoves board), -pv.2, [])
        else
          let valids := (t1.Vs s).getD []
          let ps := (t1.Ps s).getD []
          let a := selectAct (ucb args t1 s ps) valids g.getActionSize
          let nsp := g.getNextState board 1 a
          let nexts := g.getCanonicalForm nsp.1 nsp.2
          let r := searchAux g nnet args fuel t1 nexts (depth + 1)
          (backupStep r.1 s a r.2.1, -r.2.1, (s, a) :: r.2.2)

/-- `MCTS.search` with its ghost edge trace, at the canonical fuel. -/
def MCTS.searchFull {S : Type} (g : Game S) (nnet : NNet S) (args : Args)
    (t : Tables) (board : S) (depth : ℕ) : Tables × ℚ × List (String × ℤ) :=
  searchAux g nnet args (args.maxMoves - depth) t board depth

/-- `MCTS.search(canonicalBoard, depth)`: the updated tables and the
returned value. -/
def MCTS.search {S : Type} (g : Game S) (nnet : NNet S) (args : Args)
    (t : Tables) (board : S) (depth : ℕ) : Tables × ℚ :=
  ((MCTS.searchFull g nnet args t board depth).1,
   (MCTS.searchFull g nnet args t board depth).2.1)

/-- The simulation loop of `getActionProb` (line 36-37 of `mcts.py`):
`n` searches from `board`, run left to right. -/
def runSims {S : Type} (g : Game S) (nnet : NNet S) (args : Args) :
    ℕ → Tables → S → Tables
  | 0, t, _ => t
  | n + 1, t, board =>
      runSims g nnet args n (MCTS.search g nnet args t board 0).1 board

/-- State of the scan modelling `np.argmax`: remaining list, index of the
next element, and the currently best (index, value) pair. -/
def amAux : List ℕ → ℕ → ℕ × ℕ → ℕ × ℕ
  | [], _, b => b
  | x :: xs, i, b => if b.2 < x then amAux xs (i + 1) (i, x) else amAux xs (i + 1) b

/-- `np.argmax` on a list of counts: index of the first occurrence of the
maximum (`0` on the empty list). -/
def argmaxFirst (l : List ℕ) : ℕ :=
  match l with
  | [] => 0
  | x :: xs => (amAux xs 1 (0, x)).1

/-- `MCTS.getActionProb(canonicalBoard, temp)`, lines 27-48 of `mcts.py`:
run `numMCTSSims` simulations, then turn the root edge visit counts into a
probability vector (one-hot on `np.argmax(counts)` when `temp == 0`, else
proportional to `counts ** (1/temp)`). -/
def MCTS.getActionProb {S : Type} (g : Game S) (nnet : NNet S) (args : Args)
    (t : Tables) (board : S) (temp : ℚ) : List ℚ :=
  let tFin := runSims g nnet args args.numMCTSSims t board
  let s := g.stringRepresentation board
  let counts : List ℕ :=
    (List.range g.getActionSize).map (fun a : ℕ => (tFin.Nsa (s, (a : ℤ))).getD 0)
  if temp = 0 then
    let bestA := argmaxFirst counts
    (List.range counts.length).map (fun i => if i = bestA then (1 : ℚ) else 0)
  else
    let countsT := counts.map (fun x => args.powQ x temp)
    countsT.map (fun x => x / countsT.sum)


/-! ## Dictionary update lemmas -/

theorem upd_self {α β : Type} [DecidableEq α] (f : α → Option β) (k : α) (v : β) :
    upd f k v k = some v := by
  simp [upd]

theorem upd_ne {α β : Type} [DecidableEq α] (f : α → Option β) (k x : α) (v : β)
    (h : x ≠ k) : upd f k v x = f x := by
  simp [upd, h]

/-! ## Characterization of the selection loop -/

/-- What holds of the loop state after scanning the action indices below
`n`: either no index so far was valid and the state is still the initial
`(-inf, -1)`, or the state records the earliest valid index attaining the
maximal score among the valid indices scanned so far. -/
def SelInv (score : ℕ → ℚ) (valids : List Bool) (n : ℕ)
    (st : Option ℚ × ℤ) : Prop :=
  (st = (none, -1) ∧ ∀ a < n, legalAt valids a = false) ∨
  (∃ j, j < n ∧ st = (some (score j), (j : ℤ)) ∧ legalAt valids j = true ∧
    (∀ a < n, legalAt valids a = true → score a ≤ score j) ∧
    (∀ a < j, legalAt valids a = true → score a < score j))

theorem selAux_append (score : ℕ → ℚ) (valids : List Bool)
    (l1 l2 : List ℕ) (st : Option ℚ × ℤ) :
    selAux score valids (l1 ++ l2) st =
      selAux score valids l2 (selAux score valids l1 st) := by
  induction l1 generalizing st with
  | nil => rfl
  | cons a rest ih =>
      by_cases hv : legalAt valids a = true
      · by_cases hb : better st.1 (score a) = true
        · simp [selAux, hv, hb, ih]
        · simp [selAux, hv, hb, ih]
      · simp [selAux, hv, ih]

theorem selAux_range_inv (score : ℕ → ℚ) (valids : List Bool) (n : ℕ) :
    SelInv score valids n (selAux score valids (List.range n) (none, -1)) := by
  induction n with
  | zero => exact Or.inl ⟨rfl, by omega⟩
  | succ n ih =>
      rw [List.range_succ, selAux_append]
      rcases ih with ⟨he, hnone⟩ | ⟨j, hj, he, hvj, hmax, hstrict⟩
      · by_cases hv : legalAt valids n = true
        · refine Or.inr ⟨n, by omega, ?_, hv, ?_, ?_⟩
          · rw [he]; simp [selAux, hv, better]
          · intro a ha hva
            rcases Nat.lt_succ_iff_lt_or_eq.mp ha with h | h
            · rw [hnone a h] at hva; exact absurd hva (by simp)
            · subst h; exact le_refl _
          · intro a ha hva
            rw [hnone a (by omega)] at hva; exact absurd hva (by simp)
        · refine Or.inl ⟨?_, ?_⟩
          · rw [he]; simp [selAux, hv]
          · intro a ha
            rcases Nat.lt_succ_iff_lt_or_eq.mp ha with h | h
            · exact hnone a h
            · subst h
              exact (Bool.not_eq_true _).mp hv
      · by_cases hv : legalAt valids n = true
        · by_cases hgt : score j < score n
          · refine Or.inr ⟨n, by omega, ?_, hv, ?_, ?_⟩
            · rw [he]; simp [selAux, hv, better, hgt]
            · intro a ha hva
              rcases Nat.lt_succ_iff_lt_or_eq.mp ha with h | h
              · exact le_of_lt (lt_of_le_of_lt (hmax a h hva) hgt)
              · subst h; exact le_refl _
            · intro a ha hva
              exact lt_of_le_of_lt (hmax a (by omega) hva) hgt
          · refine Or.inr ⟨j, by omega, ?_, hvj, ?_, hstrict⟩
            · rw [he]; simp [selAux, hv, better, hgt]
            · intro a ha hva
              rcases Nat.lt_succ_iff_lt_or_eq.mp ha with h | h
              · exact hmax a h hva
              · subst h; exact not_lt.mp hgt
        · refine Or.inr ⟨j, by omega, ?_, hvj, ?_, hstrict⟩
          · rw [he]; simp [selAux, hv]
          · intro a ha hva
            rcases Nat.lt_succ_iff_lt_or_eq.mp ha with h | h
            · exact hmax a h hva
            · subst h; exact absurd hva hv

/-- `best_act` is either the `-1` sentinel or a valid in-range index. -/
theorem selectAct_cases (score : ℕ → ℚ) (valids : List Bool) (size : ℕ) :
    selectAct score valids size = -1 ∨
      ∃ j, j < size ∧ selectAct score valids size = (j : ℤ) ∧
        legalAt valids j = true := by
  rcases selAux_range_inv score valids size with ⟨he, _⟩ | ⟨j, hj, he, hv, _, _⟩
  · exact Or.inl (by simp [selectAct, he])
  · exact Or.inr ⟨j, hj, by simp [selectAct, he], hv⟩

/-- When at least one in-range action is valid, `best_act` is the earliest
valid index attaining the maximal score: every valid action scores no more,
and every earlier valid action scores strictly less. -/
theorem selectAct_spec (score : ℕ → ℚ) (valids : List Bool) (size : ℕ)
    (h : ∃ j, j < size ∧ legalAt valids j = true) :
    ∃ j, j < size ∧ selectAct score valids size = (j : ℤ) ∧
      legalAt valids j = true ∧
      (∀ a < size, legalAt valids a = true → score a ≤ score j) ∧
      (∀ a < j, legalAt valids a = true → score a < score j) := by
  rcases selAux_range_inv score valids size with ⟨_, hnone⟩ | ⟨j, hj, he, hv, hmax, hstr⟩
  · rcases h with ⟨j, hj, hv⟩
    rw [hnone j hj] at hv; exact absurd hv (by simp)
  · exact ⟨j, hj, by simp [selectAct, he], hv, hmax, hstr⟩

/-- When no in-range action is valid, `best_act` keeps its `-1`
initialization. -/
theorem selectAct_none (score : ℕ → ℚ) (valids : List Bool) (size : ℕ)
    (h : ∀ j < size, legalAt valids j = false) :
    selectAct score valids size = -1 := by
  rcases selectAct_cases score valids size with h1 | ⟨j, hj, _, hv⟩
  · exact h1
  · rw [h j hj] at hv; exact absurd hv (by simp)

/-! ## Characterization of the argmax scan -/

theorem amAux_spec (xs : List ℕ) : ∀ (i : ℕ) (b : ℕ × ℕ),
    (amAux xs i b = b ∨
      ∃ k, k < xs.length ∧ (amAux xs i b).1 = i + k ∧
        (amAux xs i b).2 = xs.getD k 0) ∧
    b.2 ≤ (amAux xs i b).2 ∧
    ∀ k < xs.length, xs.getD k 0 ≤ (amAux xs i b).2 := by
  induction xs with
  | nil =>
      intro i b
      refine ⟨Or.inl rfl, le_refl _, ?_⟩
      intro k hk; simp at hk
  | cons x xs ih =>
      intro i b
      by_cases hlt : b.2 < x
      · have h := ih (i + 1) (i, x)
        simp only [amAux, if_pos hlt]
        refine ⟨?_, ?_, ?_⟩
        · rcases h.1 with he | ⟨k, hk, h1, h2⟩
          · exact Or.inr ⟨0, by simp, by rw [he]; simp, by rw [he]; simp⟩
          · exact Or.inr ⟨k + 1, by simpa using hk, by omega, by simpa using h2⟩
        · exact le_of_lt (lt_of_lt_of_le hlt h.2.1)
        · intro k hk
          match k with
          | 0 => simpa using h.2.1
          | k + 1 => exact h.2.2 k (by simpa using hk)
      · have h := ih (i + 1) b
        simp only [amAux, if_neg hlt]
        refine ⟨?_, h.2.1, ?_⟩
        · rcases h.1 with he | ⟨k, hk, h1, h2⟩
          · exact Or.inl he
          · exact Or.inr ⟨k + 1, by simpa using hk, by omega, by simpa using h2⟩
        · intro k hk
          match k with
          | 0 =>
              simp only [List.getD_cons_zero]
              exact le_trans (not_lt.mp hlt) h.2.1
          | k + 1 => exact h.2.2 k (by simpa using hk)

/-- `np.argmax` returns an in-range index whose entry dominates every
entry of the list (and, being first-maximal, in particular exists). -/
theorem argmaxFirst_spec (l : List ℕ) (hne : l ≠ []) :
    argmaxFirst l < l.length ∧
      ∀ i < l.length, l.getD i 0 ≤ l.getD (argmaxFirst l) 0 := by
  match l, hne with
  | x :: xs, _ =>
      have h := amAux_spec xs 1 (0, x)
      have hval : (x :: xs).getD (amAux xs 1 (0, x)).1 0 = (amAux xs 1 (0, x)).2 := by
        rcases h.1 with he | ⟨k, hk, h1, h2⟩
        · rw [he]; simp
        · rw [h1, h2]
          have : 1 + k = k + 1 := by omega
          rw [this, List.getD_cons_succ]
      constructor
      · rcases h.1 with he | ⟨k, hk, h1, h2⟩
        · rw [argmaxFirst, he]; simp
        · rw [argmaxFirst, h1]; simp; omega
      · intro i hi
        rw [argmaxFirst, hval]
        match i with
        | 0 => simpa using h.2.1
        | i + 1 =>
            rw [List.getD_cons_succ]
            exact h.2.2 i (by simpa using hi)

/-! ## List sum helpers -/

theorem sum_nonneg_of_mem (l : List ℚ) (h : ∀ x ∈ l, 0 ≤ x) : 0 ≤ l.sum := by
  induction l with
  | nil => simp
  | cons x xs ih =>
      simp only [List.sum_cons]
      have := h x (by simp)
      have := ih (fun y hy => h y (by simp [hy]))
      linarith

theorem all_zero_of_sum_zero (l : List ℚ) (h : ∀ x ∈ l, 0 ≤ x)
    (hs : l.sum = 0) : ∀ x ∈ l, x = 0 := by
  induction l with
  | nil => simp
  | cons x xs ih =>
      simp only [List.sum_cons] at hs
      have hx : 0 ≤ x := h x (by simp)
      have hxs : ∀ y ∈ xs, 0 ≤ y := fun y hy => h y (by simp [hy])
      have hsx : 0 ≤ xs.sum := sum_nonneg_of_mem xs hxs
      have hx0 : x = 0 := by linarith
      intro y hy
      rcases List.mem_cons.mp hy with h1 | h1
      · rw [h1, hx0]
      · exact ih hxs (by linarith) y h1

theorem getD_le_sum (l : List ℚ) (h : ∀ x ∈ l, 0 ≤ x) :
    ∀ i < l.length, l.getD i 0 ≤ l.sum := by
  induction l with
  | nil => intro i hi; simp at hi
  | cons x xs ih =>
      intro i hi
      have hxs : ∀ y ∈ xs, 0 ≤ y := fun y hy => h y (by simp [hy])
      match i with
      | 0 =>
          simp only [List.getD_cons_zero, List.sum_cons]
          have := sum_nonneg_of_mem xs hxs
          linarith
      | i + 1 =>
          simp only [List.getD_cons_succ, List.sum_cons]
          have := ih hxs i (by simpa using hi)
          have := h x (by simp)
          linarith

theorem sum_map_div (l : List ℚ) (c : ℚ) :
    (l.map (fun x => x / c)).sum = l.sum / c := by
  induction l with
  | nil => simp
  | cons x xs ih => simp [ih, add_div]

theorem getD_map_range {α : Type} (f : ℕ → α) (n i : ℕ) (d : α) (hi : i < n) :
    ((List.range n).map f).getD i d = f i := by
  rw [List.getD_eq_getElem _ _ (by simpa using hi)]
  simp

theorem getD_map_of_lt {α β : Type} (f : α → β) (l : List α) (i : ℕ)
    (d : β) (d0 : α) (hi : i < l.length) :
    (l.map f).getD i d = f (l.getD i d0) := by
  rw [List.getD_eq_getElem _ _ (by simpa using hi), List.getD_eq_getElem _ _ hi]
  simp

theorem sum_map_range_eq (n : ℕ) (f : ℕ → ℚ) :
    ((List.range n).map f).sum = ∑ i ∈ Finset.range n, f i := by
  induction n with
  | zero => simp
  | succ n ih => rw [List.range_succ, Finset.sum_range_succ]; simp [ih]

theorem sum_indicator_range (n bA : ℕ) (hb : bA < n) :
    ((List.range n).map (fun i => if i = bA then (1 : ℚ) else 0)).sum = 1 := by
  rw [sum_map_range_eq]
  rw [Finset.sum_ite_eq']
  simp [Finset.mem_range, hb]

/-! ## Properties of the policy masking and renormalization -/

theorem maskPolicy_length (ps : List ℚ) (valids : List Bool) :
    (maskPolicy ps valids).length = min ps.length valids.length := by
  simp [maskPolicy]

theorem maskPolicy_getD (ps : List ℚ) (valids : List Bool) (a : ℕ)
    (hLen : ps.length = valids.length) (ha : a < valids.length) :
    (maskPolicy ps valids).getD a 0 =
      ps.getD a 0 * (if legalAt valids a = true then 1 else 0) := by
  have hm : a < (maskPolicy ps valids).length := by
    rw [maskPolicy_length]; omega
  rw [List.getD_eq_getElem _ _ hm, List.getD_eq_getElem _ _ (by omega : a < ps.length)]
  have hv : legalAt valids a = valids[a] := List.getD_eq_getElem valids false ha
  rw [hv]
  simp [maskPolicy]

theorem maskPolicy_nonneg (ps : List ℚ) (valids : List Bool)
    (hnn : ∀ x ∈ ps, 0 ≤ x) : ∀ x ∈ maskPolicy ps valids, 0 ≤ x := by
  induction ps generalizing valids with
  | nil => intro x hx; simp [maskPolicy] at hx
  | cons p ps ih =>
      intro x hx
      match valids with
      | [] => simp [maskPolicy] at hx
      | vb :: valids =>
          simp only [maskPolicy, List.zipWith_cons_cons] at hx
          rcases List.mem_cons.mp hx with h1 | h1
          · subst h1
            have hp := hnn p (by simp)
            by_cases hb : vb <;> simp [hb] <;> positivity
          · exact ih valids (fun y hy => hnn y (by simp [hy])) x h1

theorem indicator_sum_eq_count (valids : List Bool) :
    (valids.map (fun vb => if vb then (1 : ℚ) else 0)).sum =
      ((valids.count true : ℕ) : ℚ) := by
  induction valids with
  | nil => simp
  | cons vb rest ih =>
      by_cases hb : vb <;> simp [hb, ih, List.count_cons] <;> ring

theorem zipAdd_of_all_zero (l1 : List ℚ) (l2 : List Bool)
    (hLen : l1.length = l2.length) (hz : ∀ x ∈ l1, x = 0) :
    List.zipWith (fun p vb => p + (if vb then 1 else 0)) l1 l2 =
      l2.map (fun vb => if vb then (1 : ℚ) else 0) := by
  induction l1 generalizing l2 with
  | nil =>
      match l2 with
      | [] => rfl
      | _ :: _ => simp at hLen
  | cons p l1 ih =>
      match l2 with
      | [] => simp at hLen
      | vb :: l2 =>
          have hp : p = 0 := hz p (by simp)
          simp only [List.zipWith_cons_cons, List.map_cons, hp, zero_add]
          rw [ih l2 (by simpa using hLen) (fun y hy => hz y (by simp [hy]))]

theorem legalAt_count_pos (valids : List Bool)
    (hLegal : ∃ j, j < valids.length ∧ legalAt valids j = true) :
    0 < valids.count true := by
  rcases hLegal with ⟨j, hj, hv⟩
  have : valids[j] = true := by
    have := List.getD_eq_getElem valids false hj
    rw [legalAt] at hv
    rw [hv] at this
    exact this.symm
  have hmem : true ∈ valids := by
    exact this ▸ List.getElem_mem hj
  exact List.count_pos_iff.mpr hmem

/-- Core properties of the expansion-time masking (lines 94-110): the
stored vector has full action-space length, exactly zero on invalid
actions, total mass 1, and — when the masked policy sums to zero — the
uniform value `1 / #valid` on every valid action. All under the Evaluator
contract that the raw policy is a nonnegative vector of action-space
length, with at least one valid action. -/
theorem maskAndNormalize_spec (ps : List ℚ) (valids : List Bool)
    (hnn : ∀ x ∈ ps, 0 ≤ x) (hLen : ps.length = valids.length)
    (hLegal : ∃ j, j < valids.length ∧ legalAt valids j = true) :
    (maskAndNormalize ps valids).length = valids.length ∧
    (∀ a < valids.length, legalAt valids a = false →
      (maskAndNormalize ps valids).getD a 0 = 0) ∧
    (maskAndNormalize ps valids).sum = 1 ∧
    ((maskPolicy ps valids).sum = 0 →
      ∀ a < valids.length, (maskAndNormalize ps valids).getD a 0 =
        if legalAt valids a = true then 1 / ((valids.count true : ℕ) : ℚ) else 0) := by
  have hmLen : (maskPolicy ps valids).length = valids.length := by
    rw [maskPolicy_length]; omega
  by_cases hpos : 0 < (maskPolicy ps valids).sum
  · have hne : (maskPolicy ps valids).sum ≠ 0 := ne_of_gt hpos
    have hdef : maskAndNormalize ps valids =
        (maskPolicy ps valids).map (fun p => p / (maskPolicy ps valids).sum) := by
      rw [maskAndNormalize]
      simp only [hpos, if_true]
    refine ⟨?_, ?_, ?_, ?_⟩
    · rw [hdef]; simpa using hmLen
    · intro a ha hfa
      rw [hdef, getD_map_of_lt _ _ _ _ 0 (by omega),
        maskPolicy_getD ps valids a hLen ha, hfa]
      simp
    · rw [hdef, sum_map_div, div_self hne]
    · intro hz; exact absurd hz hne
  · have hz : (maskPolicy ps valids).sum = 0 := by
      have := sum_nonneg_of_mem _ (maskPolicy_nonneg ps valids hnn)
      linarith [not_lt.mp hpos]
    have hall : ∀ x ∈ maskPolicy ps valids, x = 0 :=
      all_zero_of_sum_zero _ (maskPolicy_nonneg ps valids hnn) hz
    have hadded : List.zipWith (fun p vb => p + (if vb then 1 else 0))
        (maskPolicy ps valids) valids =
        valids.map (fun vb => if vb then (1 : ℚ) else 0) :=
      zipAdd_of_all_zero _ _ hmLen hall
    have hcount : (0 : ℚ) < ((valids.count true : ℕ) : ℚ) := by
      exact_mod_cast legalAt_count_pos valids hLegal
    have haddsum : (List.zipWith (fun p vb => p + (if vb then 1 else 0))
        (maskPolicy ps valids) valids).sum = ((valids.count true : ℕ) : ℚ) := by
      rw [hadded, indicator_sum_eq_count]
    have hdef : maskAndNormalize ps valids =
        (valids.map (fun vb => if vb then (1 : ℚ) else 0)).map
          (fun p => p / ((valids.count true : ℕ) : ℚ)) := by
      simp only [maskAndNormalize, if_neg hpos, hadded, indicator_sum_eq_count]
    refine ⟨?_, ?_, ?_, ?_⟩
    · rw [hdef]; simp
    · intro a ha hfa
      rw [hdef, getD_map_of_lt _ _ _ _ 0 (by simpa using ha),
        getD_map_of_lt _ _ _ _ false ha]
      have : legalAt valids a = valids.getD a false := rfl
      rw [← this, hfa]
      simp
    · rw [hdef, sum_map_div, indicator_sum_eq_count, div_self (ne_of_gt hcount)]
    · intro _ a ha
      rw [hdef, getD_map_of_lt _ _ _ _ 0 (by simpa using ha),
        getD_map_of_lt _ _ _ _ false ha]
      have : legalAt valids a = valids.getD a false := rfl
      rw [← this]
      by_cases hb : legalAt valids a = true
      · simp [hb]
      · simp [hb]

/-! ## The table invariant maintained by the search -/

/-- Well-formedness of the statistics tables, as established by
`MCTS.__init__` and maintained by every simulation: the per-position
tables `Ps`, `Vs`, `Ns` share their domain; `Qsa` and `Nsa` share theirs;
`Vs` entries are the oracle's valid-move vector of a position with that
key; `Es` entries are either the depth-guard sentinel or an oracle
outcome; `Nsa` keys carry the `-1` sentinel or an in-range action valid
per the stored mask; edge counts are positive; and a node's visit count is
the sum of its edges' visit counts (the `-1` sentinel edge included). -/
structure TInv {S : Type} (g : Game S) (t : Tables) : Prop where
  domPV : ∀ s, (t.Ps s).isSome = (t.Vs s).isSome
  domPN : ∀ s, (t.Ps s).isSome = (t.Ns s).isSome
  domQN : ∀ k, (t.Qsa k).isSome = (t.Nsa k).isSome
  vsOrigin : ∀ s mask, t.Vs s = some mask →
    ∃ b, g.stringRepresentation b = s ∧ mask = g.getValidMoves b
  esOrigin : ∀ s e, t.Es s = some e →
    e = 1 / 10000 ∨ ∃ b, g.stringRepresentation b = s ∧ e = g.getGameEnded b
  nsaLegal : ∀ s a, (t.Nsa (s, a)).isSome →
    a = -1 ∨ ∃ j : ℕ, a = (j : ℤ) ∧ j < g.getActionSize ∧
      ∃ mask, t.Vs s = some mask ∧ legalAt mask j = true
  nsaNs : ∀ s a, (t.Nsa (s, a)).isSome → (t.Ns s).isSome
  nsaPos : ∀ k n, t.Nsa k = some n → 1 ≤ n
  nsSum : ∀ s n, t.Ns s = some n →
    n = (∑ a ∈ Finset.range g.getActionSize, (t.Nsa (s, (a : ℤ))).getD 0) +
      (t.Nsa (s, -1)).getD 0

theorem tInv_empty {S : Type} (g : Game S) : TInv g emptyTables := by
  constructor <;> intro s <;> simp [emptyTables]

/-! ### Field-level facts about the four mutation steps -/

theorem guardStep_Qsa (t : Tables) (s : String) : (guardStep t s).Qsa = t.Qsa := rfl

theorem guardStep_Nsa (t : Tables) (s : String) : (guardStep t s).Nsa = t.Nsa := rfl

theorem guardStep_Ns (t : Tables) (s : String) : (guardStep t s).Ns = t.Ns := rfl

theorem guardStep_Ps (t : Tables) (s : String) : (guardStep t s).Ps = t.Ps := rfl

theorem guardStep_Vs (t : Tables) (s : String) : (guardStep t s).Vs = t.Vs := rfl

theorem guardStep_Es (t : Tables) (s x : String) :
    (guardStep t s).Es x = if x = s then some (1 / 10000) else t.Es x := rfl

theorem memoStep_Qsa (t : Tables) (s : String) (e : ℚ) :
    (memoStep t s e).Qsa = t.Qsa := by
  unfold memoStep; split <;> rfl

theorem memoStep_Nsa (t : Tables) (s : String) (e : ℚ) :
    (memoStep t s e).Nsa = t.Nsa := by
  unfold memoStep; split <;> rfl

theorem memoStep_Ns (t : Tables) (s : String) (e : ℚ) :
    (memoStep t s e).Ns = t.Ns := by
  unfold memoStep; split <;> rfl

theorem memoStep_Ps (t : Tables) (s : String) (e : ℚ) :
    (memoStep t s e).Ps = t.Ps := by
  unfold memoStep; split <;> rfl

theorem memoStep_Vs (t : Tables) (s : String) (e : ℚ) :
    (memoStep t s e).Vs = t.Vs := by
  unfold memoStep; split <;> rfl

theorem memoStep_Es_stable (t : Tables) (s x : String) (e v : ℚ)
    (hx : t.Es x = some v) : (memoStep t s e).Es x = some v := by
  unfold memoStep
  split
  · by_cases hxs : x = s
    · subst hxs
      rename_i hn
      rw [hx] at hn; simp at hn
    · show upd t.Es s e x = some v
      rw [upd_ne _ _ _ _ hxs, hx]
  · exact hx

theorem memoStep_Es_isSome (t : Tables) (s : String) (e : ℚ) :
    ((memoStep t s e).Es s).isSome = true := by
  unfold memoStep
  split
  · show (upd t.Es s e s).isSome = true
    rw [upd_self]; rfl
  · rename_i hn
    simp only [Option.isNone_iff_eq_none] at hn
    cases h : t.Es s
    · exact absurd h hn
    · simp

theorem memoStep_Es_ne (t : Tables) (s x : String) (e : ℚ) (hx : x ≠ s) :
    (memoStep t s e).Es x = t.Es x := by
  unfold memoStep
  split
  · exact upd_ne _ _ _ _ hx
  · rfl

theorem expandStep_Qsa (t : Tables) (s : String) (raw : List ℚ) (valids : List Bool) :
    (expandStep t s raw valids).Qsa = t.Qsa := rfl

theorem expandStep_Nsa (t : Tables) (s : String) (raw : List ℚ) (valids : List Bool) :
    (expandStep t s raw valids).Nsa = t.Nsa := rfl

theorem expandStep_Es (t : Tables) (s : String) (raw : List ℚ) (valids : List Bool) :
    (expandStep t s raw valids).Es = t.Es := rfl

theorem backupStep_Vs (t : Tables) (s : String) (a : ℤ) (v : ℚ) :
    (backupStep t s a v).Vs = t.Vs := by
  unfold backupStep
  cases h : t.Qsa (s, a) <;> simp [h]

theorem backupStep_Ps (t : Tables) (s : String) (a : ℤ) (v : ℚ) :
    (backupStep t s a v).Ps = t.Ps := by
  unfold backupStep
  cases h : t.Qsa (s, a) <;> simp [h]

theorem backupStep_Es (t : Tables) (s : String) (a : ℤ) (v : ℚ) :
    (backupStep t s a v).Es = t.Es := by
  unfold backupStep
  cases h : t.Qsa (s, a) <;> simp [h]

theorem backupStep_Nsa_self (t : Tables) (s : String) (a : ℤ) (v : ℚ)
    (hQN : (t.Qsa (s, a)).isSome = (t.Nsa (s, a)).isSome) :
    (backupStep t s a v).Nsa (s, a) = some ((t.Nsa (s, a)).getD 0 + 1) := by
  unfold backupStep
  cases h : t.Qsa (s, a) with
  | none =>
      rw [h] at hQN
      have : t.Nsa (s, a) = none := by
        cases hn : t.Nsa (s, a)
        · rfl
        · rw [hn] at hQN; simp at hQN
      simp [h, this, upd_self]
  | some q => simp [h, upd_self]

theorem backupStep_Nsa_ne (t : Tables) (s : String) (a : ℤ) (v : ℚ)
    (k : String × ℤ) (hk : k ≠ (s, a)) :
    (backupStep t s a v).Nsa k = t.Nsa k := by
  unfold backupStep
  cases h : t.Qsa (s, a) <;> simp [h, upd_ne _ _ _ _ hk]

theorem backupStep_Qsa_ne (t : Tables) (s : String) (a : ℤ) (v : ℚ)
    (k : String × ℤ) (hk : k ≠ (s, a)) :
    (backupStep t s a v).Qsa k = t.Qsa k := by
  unfold backupStep
  cases h : t.Qsa (s, a) <;> simp [h, upd_ne _ _ _ _ hk]

theorem backupStep_Qsa_self_mean (t : Tables) (s : String) (a : ℤ) (v : ℚ)
    (q : ℚ) (n : ℕ) (hq : t.Qsa (s, a) = some q) (hn : t.Nsa (s, a) = some n) :
    (backupStep t s a v).Qsa (s, a) = some (((n : ℚ) * q + v) / ((n : ℚ) + 1)) := by
  unfold backupStep
  simp [hq, hn, upd_self]

theorem backupStep_Qsa_self_fresh (t : Tables) (s : String) (a : ℤ) (v : ℚ)
    (hq : t.Qsa (s, a) = none) :
    (backupStep t s a v).Qsa (s, a) = some v := by
  unfold backupStep
  simp [hq, upd_self]

theorem backupStep_Nsa_self_fresh (t : Tables) (s : String) (a : ℤ) (v : ℚ)
    (hq : t.Qsa (s, a) = none) :
    (backupStep t s a v).Nsa (s, a) = some 1 := by
  unfold backupStep
  simp [hq, upd_self]

theorem backupStep_Nsa_self_mean (t : Tables) (s : String) (a : ℤ) (v : ℚ)
    (q : ℚ) (n : ℕ) (hq : t.Qsa (s, a) = some q) (hn : t.Nsa (s, a) = some n) :
    (backupStep t s a v).Nsa (s, a) = some (n + 1) := by
  unfold backupStep
  simp [hq, hn, upd_self]

theorem backupStep_Ns_self (t : Tables) (s : String) (a : ℤ) (v : ℚ) :
    (backupStep t s a v).Ns s = some ((t.Ns s).getD 0 + 1) := by
  unfold backupStep
  cases h : t.Qsa (s, a) <;> simp [h, upd_self]

theorem backupStep_Ns_ne (t : Tables) (s : String) (a : ℤ) (v : ℚ)
    (x : String) (hx : x ≠ s) : (backupStep t s a v).Ns x = t.Ns x := by
  unfold backupStep
  cases h : t.Qsa (s, a) <;> simp [h, upd_ne _ _ _ _ hx]

/-! ### Invariant preservation by each mutation step -/

theorem guardStep_inv {S : Type} (g : Game S) (t : Tables) (hInv : TInv g t)
    (s : String) : TInv g (guardStep t s) := by
  refine ⟨hInv.domPV, hInv.domPN, hInv.domQN, hInv.vsOrigin, ?_,
    hInv.nsaLegal, hInv.nsaNs, hInv.nsaPos, hInv.nsSum⟩
  intro x e hx
  rw [guardStep_Es] at hx
  by_cases hxs : x = s
  · rw [if_pos hxs] at hx
    injection hx with h
    exact Or.inl h.symm
  · rw [if_neg hxs] at hx
    exact hInv.esOrigin x e hx

theorem memoStep_Es_inv (t : Tables) (s x : String) (e v : ℚ)
    (h : (memoStep t s e).Es x = some v) : t.Es x = some v ∨ (x = s ∧ v = e) := by
  unfold memoStep at h
  split at h
  · by_cases hxs : x = s
    · subst hxs
      change upd t.Es x e x = some v at h
      rw [upd_self] at h
      injection h with h
      exact Or.inr ⟨rfl, h.symm⟩
    · change upd t.Es s e x = some v at h
      rw [upd_ne _ _ _ _ hxs] at h
      exact Or.inl h
  · exact Or.inl h

theorem memoStep_inv {S : Type} (g : Game S) (t : Tables) (hInv : TInv g t)
    (board : S) :
    TInv g (memoStep t (g.stringRepresentation board) (g.getGameEnded board)) := by
  constructor
  · intro x; rw [memoStep_Ps, memoStep_Vs]; exact hInv.domPV x
  · intro x; rw [memoStep_Ps, memoStep_Ns]; exact hInv.domPN x
  · intro k; rw [memoStep_Qsa, memoStep_Nsa]; exact hInv.domQN k
  · intro x mask h; rw [memoStep_Vs] at h; exact hInv.vsOrigin x mask h
  · intro x e hx
    rcases memoStep_Es_inv t _ x _ e hx with h | ⟨hxs, hve⟩
    · exact hInv.esOrigin x e h
    · exact Or.inr ⟨board, hxs.symm, hve⟩
  · intro x a h
    rw [memoStep_Nsa] at h
    rcases hInv.nsaLegal x a h with h1 | ⟨j, h1, h2, mask, h3, h4⟩
    · exact Or.inl h1
    · exact Or.inr ⟨j, h1, h2, mask, by rw [memoStep_Vs]; exact h3, h4⟩
  · intro x a h
    rw [memoStep_Nsa] at h
    rw [memoStep_Ns]
    exact hInv.nsaNs x a h
  · intro k n h
    rw [memoStep_Nsa] at h
    exact hInv.nsaPos k n h
  · intro x n h
    rw [memoStep_Ns] at h
    have := hInv.nsSum x n h
    simpa [memoStep_Nsa] using this

theorem expandStep_Ps_ap (t : Tables) (s : String) (raw : List ℚ)
    (valids : List Bool) (x : String) :
    (expandStep t s raw valids).Ps x = upd t.Ps s (maskAndNormalize raw valids) x := rfl

theorem expandStep_Vs_ap (t : Tables) (s : String) (raw : List ℚ)
    (valids : List Bool) (x : String) :
    (expandStep t s raw valids).Vs x = upd t.Vs s valids x := rfl

theorem expandStep_Ns_ap (t : Tables) (s : String) (raw : List ℚ)
    (valids : List Bool) (x : String) :
    (expandStep t s raw valids).Ns x = upd t.Ns s 0 x := rfl

theorem expandStep_inv {S : Type} (g : Game S) (t : Tables) (hInv : TInv g t)
    (board : S) (raw : List ℚ)
    (hP : (t.Ps (g.stringRepresentation board)).isNone = true) :
    TInv g (expandStep t (g.stringRepresentation board) raw
      (g.getValidMoves board)) := by
  set s := g.stringRepresentation board with hs
  have hPnone : t.Ps s = none := Option.isNone_iff_eq_none.mp hP
  have hVnone : t.Vs s = none := by
    have hpv := hInv.domPV s
    rw [hPnone] at hpv
    cases h : t.Vs s
    · rfl
    · rw [h] at hpv; simp at hpv
  have hNnone : t.Ns s = none := by
    have hpn := hInv.domPN s
    rw [hPnone] at hpn
    cases h : t.Ns s
    · rfl
    · rw [h] at hpn; simp at hpn
  have hNsaNone : ∀ a : ℤ, t.Nsa (s, a) = none := by
    intro a
    cases h : t.Nsa (s, a)
    · rfl
    · have hnn := hInv.nsaNs s a (by rw [h]; rfl)
      rw [hNnone] at hnn; simp at hnn
  constructor
  · intro x
    rw [expandStep_Ps_ap, expandStep_Vs_ap]
    by_cases hx : x = s
    · subst hx; rw [upd_self, upd_self]; rfl
    · rw [upd_ne _ _ _ _ hx, upd_ne _ _ _ _ hx]; exact hInv.domPV x
  · intro x
    rw [expandStep_Ps_ap, expandStep_Ns_ap]
    by_cases hx : x = s
    · subst hx; rw [upd_self, upd_self]; rfl
    · rw [upd_ne _ _ _ _ hx, upd_ne _ _ _ _ hx]; exact hInv.domPN x
  · intro k; exact hInv.domQN k
  · intro x mask h
    rw [expandStep_Vs_ap] at h
    by_cases hx : x = s
    · subst hx
      rw [upd_self] at h
      injection h with h
      exact ⟨board, hs.symm, h.symm⟩
    · rw [upd_ne _ _ _ _ hx] at h
      exact hInv.vsOrigin x mask h
  · intro x e hx; exact hInv.esOrigin x e hx
  · intro x a h
    rcases hInv.nsaLegal x a h with h1 | ⟨j, h1, h2, mask, h3, h4⟩
    · exact Or.inl h1
    · refine Or.inr ⟨j, h1, h2, mask, ?_, h4⟩
      rw [expandStep_Vs_ap]
      by_cases hx : x = s
      · subst hx; rw [h3] at hVnone; exact absurd hVnone (by simp)
      · rw [upd_ne _ _ _ _ hx]; exact h3
  · intro x a h
    rw [expandStep_Ns_ap]
    by_cases hx : x = s
    · subst hx; rw [upd_self]; rfl
    · rw [upd_ne _ _ _ _ hx]; exact hInv.nsaNs x a h
  · intro k n h; exact hInv.nsaPos k n h
  · intro x n h
    rw [expandStep_Ns_ap] at h
    show n = (∑ a ∈ Finset.range g.getActionSize, (t.Nsa (x, (a : ℤ))).getD 0) +
      (t.Nsa (x, -1)).getD 0
    by_cases hx : x = s
    · subst hx
      rw [upd_self] at h
      injection h with h
      rw [← h]
      rw [Finset.sum_eq_zero (fun a _ => by rw [hNsaNone (a : ℤ)]; rfl)]
      rw [hNsaNone (-1)]
      rfl
    · rw [upd_ne _ _ _ _ hx] at h
      exact hInv.nsSum x n h

theorem backupStep_inv {S : Type} (g : Game S) (t : Tables) (hInv : TInv g t)
    (s : String) (a : ℤ) (v : ℚ) (hPs : (t.Ps s).isSome = true)
    (ha : a = -1 ∨ ∃ j : ℕ, a = (j : ℤ) ∧ j < g.getActionSize ∧
      ∃ mask, t.Vs s = some mask ∧ legalAt mask j = true) :
    TInv g (backupStep t s a v) := by
  have hNsaSelf : (backupStep t s a v).Nsa (s, a) =
      some ((t.Nsa (s, a)).getD 0 + 1) := backupStep_Nsa_self t s a v (hInv.domQN _)
  constructor
  · intro x; rw [backupStep_Ps, backupStep_Vs]; exact hInv.domPV x
  · intro x
    rw [backupStep_Ps]
    by_cases hx : x = s
    · subst hx
      rw [backupStep_Ns_self, hPs]
      rfl
    · rw [backupStep_Ns_ne _ _ _ _ _ hx]; exact hInv.domPN x
  · intro k
    by_cases hk : k = (s, a)
    · subst hk
      rw [hNsaSelf]
      cases hq : t.Qsa (s, a) with
      | some q =>
          have hn : ∃ n, t.Nsa (s, a) = some n := by
            have := hInv.domQN (s, a)
            rw [hq] at this
            cases h2 : t.Nsa (s, a)
            · rw [h2] at this; simp at this
            · exact ⟨_, rfl⟩
          rcases hn with ⟨n, hn⟩
          rw [backupStep_Qsa_self_mean t s a v q n hq hn]
          rfl
      | none =>
          rw [backupStep_Qsa_self_fresh t s a v hq]
          rfl
    · rw [backupStep_Qsa_ne _ _ _ _ _ hk, backupStep_Nsa_ne _ _ _ _ _ hk]
      exact hInv.domQN k
  · intro x mask h; rw [backupStep_Vs] at h; exact hInv.vsOrigin x mask h
  · intro x e hx; rw [backupStep_Es] at hx; exact hInv.esOrigin x e hx
  · intro x b h
    by_cases hk : ((x, b) : String × ℤ) = (s, a)
    · rw [Prod.mk.injEq] at hk
      rcases hk with ⟨hx, hb⟩
      subst hx; subst hb
      rcases ha with h1 | ⟨j, h1, h2, mask, h3, h4⟩
      · exact Or.inl h1
      · exact Or.inr ⟨j, h1, h2, mask, by rw [backupStep_Vs]; exact h3, h4⟩
    · rw [backupStep_Nsa_ne _ _ _ _ _ hk] at h
      rcases hInv.nsaLegal x b h with h1 | ⟨j, h1, h2, mask, h3, h4⟩
      · exact Or.inl h1
      · exact Or.inr ⟨j, h1, h2, mask, by rw [backupStep_Vs]; exact h3, h4⟩
  · intro x b h
    by_cases hx : x = s
    · subst hx; rw [backupStep_Ns_self]; rfl
    · rw [backupStep_Ns_ne _ _ _ _ _ hx]
      have hk : ((x, b) : String × ℤ) ≠ (s, a) := by
        simp only [ne_eq, Prod.mk.injEq, not_and]
        intro hc; exact absurd hc hx
      rw [backupStep_Nsa_ne _ _ _ _ _ hk] at h
      exact hInv.nsaNs x b h
  · intro k n h
    by_cases hk : k = (s, a)
    · subst hk
      rw [hNsaSelf] at h
      injection h with h
      omega
    · rw [backupStep_Nsa_ne _ _ _ _ _ hk] at h
      exact hInv.nsaPos k n h
  · intro x n h
    by_cases hx : x = s
    · subst hx
      rw [backupStep_Ns_self] at h
      injection h with h
      have hbase : (t.Ns x).getD 0 =
          (∑ b ∈ Finset.range g.getActionSize, (t.Nsa (x, (b : ℤ))).getD 0) +
            (t.Nsa (x, -1)).getD 0 := by
        cases hN : t.Ns x with
        | none =>
            have hAllNone : ∀ b : ℤ, t.Nsa (x, b) = none := by
              intro b
              cases h2 : t.Nsa (x, b)
              · rfl
              · have := hInv.nsaNs x b (by rw [h2]; rfl)
                rw [hN] at this; simp at this
            rw [Finset.sum_eq_zero (fun b _ => by rw [hAllNone (b : ℤ)]; rfl),
              hAllNone (-1)]
            rfl
        | some m => exact hInv.nsSum x m hN
      rcases ha with h1 | ⟨j, h1, h2, mask, h3, h4⟩
      · subst h1
        have hSum : (∑ b ∈ Finset.range g.getActionSize,
            ((backupStep t x (-1) v).Nsa (x, (b : ℤ))).getD 0) =
            ∑ b ∈ Finset.range g.getActionSize, (t.Nsa (x, (b : ℤ))).getD 0 := by
          refine Finset.sum_congr rfl ?_
          intro b _
          rw [backupStep_Nsa_ne]
          simp only [ne_eq, Prod.mk.injEq, true_and]
          omega
        rw [hSum, hNsaSelf]
        rw [← h]
        simp only [Option.getD_some]
        omega
      · subst h1
        have hm1 : ((backupStep t x ((j : ℤ)) v).Nsa (x, -1)).getD 0 =
            (t.Nsa (x, -1)).getD 0 := by
          rw [backupStep_Nsa_ne]
          simp only [ne_eq, Prod.mk.injEq, true_and]
          omega
        have hSum : (∑ b ∈ Finset.range g.getActionSize,
            ((backupStep t x ((j : ℤ)) v).Nsa (x, (b : ℤ))).getD 0) =
            (∑ b ∈ Finset.range g.getActionSize, (t.Nsa (x, (b : ℤ))).getD 0) + 1 := by
          have hsplit : ∀ b ∈ Finset.range g.getActionSize,
              ((backupStep t x ((j : ℤ)) v).Nsa (x, (b : ℤ))).getD 0 =
              (t.Nsa (x, (b : ℤ))).getD 0 + (if b = j then 1 else 0) := by
            intro b _
            by_cases hbj : b = j
            · subst hbj
              rw [hNsaSelf]
              simp
            · rw [backupStep_Nsa_ne]
              · simp [hbj]
              · simp only [ne_eq, Prod.mk.injEq, true_and]
                exact_mod_cast hbj
          rw [Finset.sum_congr rfl hsplit, Finset.sum_add_distrib,
            Finset.sum_ite_eq' (Finset.range g.getActionSize) j (fun _ => 1)]
          simp [Finset.mem_range, h2]
        rw [hSum, hm1, ← h]
        omega
    · rw [backupStep_Ns_ne _ _ _ _ _ hx] at h
      have hNsaU : ∀ b : ℤ, (backupStep t s a v).Nsa (x, b) = t.Nsa (x, b) := by
        intro b
        refine backupStep_Nsa_ne _ _ _ _ _ ?_
        simp only [ne_eq, Prod.mk.injEq, not_and]
        intro hc; exact absurd hc hx
      simp only [hNsaU]
      exact hInv.nsSum x n h

def rawPred {S : Type} (g : Game S) (nnet : NNet S) (board : S) : List ℚ × ℚ :=
  if g.isDark then nnet.predict (g.getDarkness board 1) else nnet.predict board

def nextBoard {S : Type} (g : Game S) (board : S) (a : ℤ) : S :=
  g.getCanonicalForm (g.getNextState board 1 a).1 (g.getNextState board 1 a).2

def chosenAct {S : Type} (g : Game S) (args : Args) (t1 : Tables) (board : S) : ℤ :=
  selectAct (ucb args t1 (g.stringRepresentation board)
      ((t1.Ps (g.stringRepresentation board)).getD []))
    ((t1.Vs (g.stringRepresentation board)).getD []) g.getActionSize

theorem searchAux_zero {S : Type} (g : Game S) (nnet : NNet S) (args : Args)
    (t : Tables) (board : S) (depth : ℕ) :
    searchAux g nnet args 0 t board depth =
      (guardStep t (g.stringRepresentation board), -(1 / 10000), []) := rfl

theorem searchAux_guard {S : Type} (g : Game S) (nnet : NNet S) (args : Args)
    (fuel : ℕ) (t : Tables) (board : S) (depth : ℕ)
    (hd : args.maxMoves ≤ depth) :
    searchAux g nnet args (fuel + 1) t board depth =
      (guardStep t (g.stringRepresentation board), -(1 / 10000), []) := by
  simp only [searchAux, if_pos hd]

theorem searchAux_term {S : Type} (g : Game S) (nnet : NNet S) (args : Args)
    (fuel : ℕ) (t : Tables) (board : S) (depth : ℕ)
    (hd : ¬args.maxMoves ≤ depth)
    (he : ((memoStep t (g.stringRepresentation board) (g.getGameEnded board)).Es
      (g.stringRepresentation board)).getD 0 ≠ 0) :
    searchAux g nnet args (fuel + 1) t board depth =
      (memoStep t (g.stringRepresentation board) (g.getGameEnded board),
        -((memoStep t (g.stringRepresentation board) (g.getGameEnded board)).Es
          (g.stringRepresentation board)).getD 0, []) := by
  simp only [searchAux, if_neg hd, if_pos he]

theorem searchAux_expand {S : Type} (g : Game S) (nnet : NNet S) (args : Args)
    (fuel : ℕ) (t : Tables) (board : S) (depth : ℕ)
    (hd : ¬args.maxMoves ≤ depth)
    (he : ((memoStep t (g.stringRepresentation board) (g.getGameEnded board)).Es
      (g.stringRepresentation board)).getD 0 = 0)
    (hp : ((memoStep t (g.stringRepresentation board) (g.getGameEnded board)).Ps
      (g.stringRepresentation board)).isNone = true) :
    searchAux g nnet args (fuel + 1) t board depth =
      (expandStep (memoStep t (g.stringRepresentation board) (g.getGameEnded board))
        (g.stringRepresentation board) (rawPred g nnet board).1 (g.getValidMoves board),
        -(rawPred g nnet board).2, []) := by
  have he' : ¬(((memoStep t (g.stringRepresentation board) (g.getGameEnded board)).Es
      (g.stringRepresentation board)).getD 0 ≠ 0) := by simp [he]
  simp only [searchAux, if_neg hd, if_neg he', hp, if_pos, rawPred]

theorem searchAux_internal {S : Type} (g : Game S) (nnet : NNet S) (args : Args)
    (fuel : ℕ) (t : Tables) (board : S) (depth : ℕ)
    (hd : ¬args.maxMoves ≤ depth)
    (he : ((memoStep t (g.stringRepresentation board) (g.getGameEnded board)).Es
      (g.stringRepresentation board)).getD 0 = 0)
    (hp : ((memoStep t (g.stringRepresentation board) (g.getGameEnded board)).Ps
      (g.stringRepresentation board)).isNone = false) :
    searchAux g nnet args (fuel + 1) t board depth =
      (backupStep (searchAux g nnet args fuel
          (memoStep t (g.stringRepresentation board) (g.getGameEnded board))
          (nextBoard g board (chosenAct g args
            (memoStep t (g.stringRepresentation board) (g.getGameEnded board)) board))
          (depth + 1)).1
        (g.stringRepresentation board)
        (chosenAct g args
          (memoStep t (g.stringRepresentation board) (g.getGameEnded board)) board)
        (searchAux g nnet args fuel
          (memoStep t (g.stringRepresentation board) (g.getGameEnded board))
          (nextBoard g board (chosenAct g args
            (memoStep t (g.stringRepresentation board) (g.getGameEnded board)) board))
          (depth + 1)).2.1,
       -(searchAux g nnet args fuel
          (memoStep t (g.stringRepresentation board) (g.getGameEnded board))
          (nextBoard g board (chosenAct g args
            (memoStep t (g.stringRepresentation board) (g.getGameEnded board)) board))
          (depth + 1)).2.1,
       (g.stringRepresentation board,
         chosenAct g args
           (memoStep t (g.stringRepresentation board) (g.getGameEnded board)) board) ::
         (searchAux g nnet args fuel
          (memoStep t (g.stringRepresentation board) (g.getGameEnded board))
          (nextBoard g board (chosenAct g args
            (memoStep t (g.stringRepresentation board) (g.getGameEnded board)) board))
          (depth + 1)).2.2) := by
  have he' : ¬(((memoStep t (g.stringRepresentation board) (g.getGameEnded board)).Es
      (g.stringRepresentation board)).getD 0 ≠ 0) := by simp [he]
  simp only [searchAux, if_neg hd, if_neg he', hp, Bool.false_eq_true, if_false,
    nextBoard, chosenAct]

/-! ## The main preservation theorem: one simulation keeps the invariant,
never erases a `Vs` or `Ps` entry, never decreases an edge count, and can
change a memoized `Es` entry only to the depth-guard sentinel. -/

theorem searchAux_preserves {S : Type} (g : Game S) (nnet : NNet S) (args : Args) :
    ∀ (fuel : ℕ) (t : Tables) (board : S) (depth : ℕ), TInv g t →
    TInv g (searchAux g nnet args fuel t board depth).1 ∧
    (∀ s mask, t.Vs s = some mask →
      (searchAux g nnet args fuel t board depth).1.Vs s = some mask) ∧
    (∀ s, (t.Ps s).isSome = true →
      ((searchAux g nnet args fuel t board depth).1.Ps s).isSome = true) ∧
    (∀ k n, t.Nsa k = some n →
      ∃ m, (searchAux g nnet args fuel t board depth).1.Nsa k = some m ∧ n ≤ m) ∧
    (∀ s e, t.Es s = some e →
      (searchAux g nnet args fuel t board depth).1.Es s = some e ∨
      (searchAux g nnet args fuel t board depth).1.Es s = some (1 / 10000)) := by
  intro fuel
  induction fuel with
  | zero =>
      intro t board depth hInv
      rw [searchAux_zero]
      refine ⟨guardStep_inv g t hInv _, ?_, ?_, ?_, ?_⟩
      · intro s mask h; rw [guardStep_Vs]; exact h
      · intro s h; rw [guardStep_Ps]; exact h
      · intro k n h; exact ⟨n, by rw [guardStep_Nsa]; exact h, le_refl n⟩
      · intro s e h
        rw [guardStep_Es]
        by_cases hs : s = g.stringRepresentation board
        · rw [if_pos hs]; exact Or.inr rfl
        · rw [if_neg hs]; exact Or.inl h
  | succ fuel ih =>
      intro t board depth hInv
      by_cases hd : args.maxMoves ≤ depth
      · rw [searchAux_guard g nnet args fuel t board depth hd]
        refine ⟨guardStep_inv g t hInv _, ?_, ?_, ?_, ?_⟩
        · intro s mask h; rw [guardStep_Vs]; exact h
        · intro s h; rw [guardStep_Ps]; exact h
        · intro k n h; exact ⟨n, by rw [guardStep_Nsa]; exact h, le_refl n⟩
        · intro s e h
          rw [guardStep_Es]
          by_cases hs : s = g.stringRepresentation board
          · rw [if_pos hs]; exact Or.inr rfl
          · rw [if_neg hs]; exact Or.inl h
      · have hInv1 : TInv g (memoStep t (g.stringRepresentation board)
            (g.getGameEnded board)) := memoStep_inv g t hInv board
        by_cases he : ((memoStep t (g.stringRepresentation board)
            (g.getGameEnded board)).Es (g.stringRepresentation board)).getD 0 ≠ 0
        · rw [searchAux_term g nnet args fuel t board depth hd he]
          refine ⟨hInv1, ?_, ?_, ?_, ?_⟩
          · intro s mask h; rw [memoStep_Vs]; exact h
          · intro s h; rw [memoStep_Ps]; exact h
          · intro k n h; exact ⟨n, by rw [memoStep_Nsa]; exact h, le_refl n⟩
          · intro s e h; exact Or.inl (memoStep_Es_stable t _ s _ e h)
        · have he' : ((memoStep t (g.stringRepresentation board)
              (g.getGameEnded board)).Es (g.stringRepresentation board)).getD 0 = 0 :=
            not_not.mp he
          by_cases hp : ((memoStep t (g.stringRepresentation board)
              (g.getGameEnded board)).Ps (g.stringRepresentation board)).isNone = true
          · rw [searchAux_expand g nnet args fuel t board depth hd he' hp]
            have hVnone : (memoStep t (g.stringRepresentation board)
                (g.getGameEnded board)).Vs (g.stringRepresentation board) = none := by
              have hpv := hInv1.domPV (g.stringRepresentation board)
              rw [Option.isNone_iff_eq_none.mp hp] at hpv
              cases h2 : (memoStep t (g.stringRepresentation board)
                  (g.getGameEnded board)).Vs (g.stringRepresentation board)
              · rfl
              · rw [h2] at hpv; simp at hpv
            refine ⟨expandStep_inv g _ hInv1 board _ hp, ?_, ?_, ?_, ?_⟩
            · intro s mask h
              rw [expandStep_Vs_ap]
              have h1 : (memoStep t (g.stringRepresentation board)
                  (g.getGameEnded board)).Vs s = some mask := by
                rw [memoStep_Vs]; exact h
              by_cases hs : s = g.stringRepresentation board
              · subst hs; rw [h1] at hVnone; exact absurd hVnone (by simp)
              · rw [upd_ne _ _ _ _ hs]; exact h1
            · intro s h
              rw [expandStep_Ps_ap]
              by_cases hs : s = g.stringRepresentation board
              · subst hs; rw [upd_self]; rfl
              · rw [upd_ne _ _ _ _ hs, memoStep_Ps]; exact h
            · intro k n h
              refine ⟨n, ?_, le_refl n⟩
              rw [expandStep_Nsa, memoStep_Nsa]; exact h
            · intro s e h
              rw [expandStep_Es]
              exact Or.inl (memoStep_Es_stable t _ s _ e h)
          · have hp' : ((memoStep t (g.stringRepresentation board)
                (g.getGameEnded board)).Ps (g.stringRepresentation board)).isNone
                = false := by
              cases h2 : ((memoStep t (g.stringRepresentation board)
                  (g.getGameEnded board)).Ps (g.stringRepresentation board)).isNone
              · rfl
              · exact absurd h2 hp
            rw [searchAux_internal g nnet args fuel t board depth hd he' hp']
            obtain ⟨hInv2, hVs2, hPs2, hNsa2, hEs2⟩ :=
              ih (memoStep t (g.stringRepresentation board) (g.getGameEnded board))
                (nextBoard g board (chosenAct g args
                  (memoStep t (g.stringRepresentation board) (g.getGameEnded board))
                  board))
                (depth + 1) hInv1
            have hPs0 : ((memoStep t (g.stringRepresentation board)
                (g.getGameEnded board)).Ps (g.stringRepresentation board)).isSome
                = true := by
              cases h2 : (memoStep t (g.stringRepresentation board)
                  (g.getGameEnded board)).Ps (g.stringRepresentation board)
              · rw [h2] at hp'; simp at hp'
              · rfl
            have hPs2' := hPs2 _ hPs0
            have ha : chosenAct g args (memoStep t (g.stringRepresentation board)
                (g.getGameEnded board)) board = -1 ∨
                ∃ j : ℕ, chosenAct g args (memoStep t (g.stringRepresentation board)
                  (g.getGameEnded board)) board = (j : ℤ) ∧ j < g.getActionSize ∧
                ∃ mask, (searchAux g nnet args fuel
                  (memoStep t (g.stringRepresentation board) (g.getGameEnded board))
                  (nextBoard g board (chosenAct g args
                    (memoStep t (g.stringRepresentation board) (g.getGameEnded board))
                    board)) (depth + 1)).1.Vs
                  (g.stringRepresentation board) = some mask ∧
                  legalAt mask j = true := by
              rcases selectAct_cases (ucb args
                  (memoStep t (g.stringRepresentation board) (g.getGameEnded board))
                  (g.stringRepresentation board)
                  (((memoStep t (g.stringRepresentation board)
                    (g.getGameEnded board)).Ps (g.stringRepresentation board)).getD []))
                  (((memoStep t (g.stringRepresentation board)
                    (g.getGameEnded board)).Vs (g.stringRepresentation board)).getD [])
                  g.getActionSize with h1 | ⟨j, hj, heq, hlegal⟩
              · exact Or.inl h1
              · cases hv : (memoStep t (g.stringRepresentation board)
                    (g.getGameEnded board)).Vs (g.stringRepresentation board) with
                | none =>
                    rw [hv] at hlegal
                    exact absurd hlegal (by simp [legalAt])
                | some mask =>
                    rw [hv] at hlegal
                    refine Or.inr ⟨j, heq, hj, mask, hVs2 _ mask hv, ?_⟩
                    simpa using hlegal
            refine ⟨backupStep_inv g _ hInv2 _ _ _ hPs2' ha, ?_, ?_, ?_, ?_⟩
            · intro s mask h
              rw [backupStep_Vs]
              exact hVs2 s mask (by rw [memoStep_Vs]; exact h)
            · intro s h
              rw [backupStep_Ps]
              exact hPs2 s (by rw [memoStep_Ps]; exact h)
            · intro k n h
              obtain ⟨m, hm, hnm⟩ := hNsa2 k n (by rw [memoStep_Nsa]; exact h)
              by_cases hk : k = ((g.stringRepresentation board),
                  chosenAct g args (memoStep t (g.stringRepresentation board)
                    (g.getGameEnded board)) board)
              · subst hk
                refine ⟨m + 1, ?_, by omega⟩
                rw [backupStep_Nsa_self _ _ _ _ (hInv2.domQN _), hm]
                rfl
              · refine ⟨m, ?_, hnm⟩
                rw [backupStep_Nsa_ne _ _ _ _ _ hk]
                exact hm
            · intro s e h
              rw [backupStep_Es]
              exact hEs2 s e (memoStep_Es_stable t _ s _ e h)

/-- Under the Position Oracle contract (a non-terminal position has at
least one valid move) and an injective position key, no simulation ever
records an edge under the `-1` sentinel action. -/
theorem searchAux_noSentinel {S : Type} (g : Game S) (nnet : NNet S) (args : Args)
    (hInj : Function.Injective g.stringRepresentation)
    (hContract : ∀ b : S, g.getGameEnded b = 0 →
      ∃ j, j < g.getActionSize ∧ legalAt (g.getValidMoves b) j = true) :
    ∀ (fuel : ℕ) (t : Tables) (board : S) (depth : ℕ), TInv g t →
      (∀ s, t.Nsa (s, -1) = none) →
      ∀ s, (searchAux g nnet args fuel t board depth).1.Nsa (s, -1) = none := by
  intro fuel
  induction fuel with
  | zero =>
      intro t board depth _ hNo s
      rw [searchAux_zero, guardStep_Nsa]
      exact hNo s
  | succ fuel ih =>
      intro t board depth hInv hNo s
      by_cases hd : args.maxMoves ≤ depth
      · rw [searchAux_guard g nnet args fuel t board depth hd, guardStep_Nsa]
        exact hNo s
      · have hInv1 : TInv g (memoStep t (g.stringRepresentation board)
            (g.getGameEnded board)) := memoStep_inv g t hInv board
        have hNo1 : ∀ x, (memoStep t (g.stringRepresentation board)
            (g.getGameEnded board)).Nsa (x, -1) = none := by
          intro x; rw [memoStep_Nsa]; exact hNo x
        by_cases he : ((memoStep t (g.stringRepresentation board)
            (g.getGameEnded board)).Es (g.stringRepresentation board)).getD 0 ≠ 0
        · rw [searchAux_term g nnet args fuel t board depth hd he]
          exact hNo1 s
        · have he' : ((memoStep t (g.stringRepresentation board)
              (g.getGameEnded board)).Es (g.stringRepresentation board)).getD 0 = 0 :=
            not_not.mp he
          by_cases hp : ((memoStep t (g.stringRepresentation board)
              (g.getGameEnded board)).Ps (g.stringRepresentation board)).isNone = true
          · rw [searchAux_expand g nnet args fuel t board depth hd he' hp,
              expandStep_Nsa]
            exact hNo1 s
          · have hp' : ((memoStep t (g.stringRepresentation board)
                (g.getGameEnded board)).Ps (g.stringRepresentation board)).isNone
                = false := by
              cases h2 : ((memoStep t (g.stringRepresentation board)
                  (g.getGameEnded board)).Ps (g.stringRepresentation board)).isNone
              · rfl
              · exact absurd h2 hp
            rw [searchAux_internal g nnet args fuel t board depth hd he' hp']
            have hPsome : ((memoStep t (g.stringRepresentation board)
                (g.getGameEnded board)).Ps (g.stringRepresentation board)).isSome
                = true := by
              cases h2 : (memoStep t (g.stringRepresentation board)
                  (g.getGameEnded board)).Ps (g.stringRepresentation board)
              · rw [h2] at hp'; simp at hp'
              · rfl
            have hVsome : ∃ mask, (memoStep t (g.stringRepresentation board)
                (g.getGameEnded board)).Vs (g.stringRepresentation board)
                = some mask := by
              have hpv := hInv1.domPV (g.stringRepresentation board)
              rw [hPsome] at hpv
              cases h2 : (memoStep t (g.stringRepresentation board)
                  (g.getGameEnded board)).Vs (g.stringRepresentation board)
              · rw [h2] at hpv; simp at hpv
              · exact ⟨_, rfl⟩
            obtain ⟨mask, hmask⟩ := hVsome
            obtain ⟨b0, hb0, hmask0⟩ := hInv1.vsOrigin _ mask hmask
            have hEs0 : (memoStep t (g.stringRepresentation board)
                (g.getGameEnded board)).Es (g.stringRepresentation board)
                = some 0 := by
              have hsome := memoStep_Es_isSome t (g.stringRepresentation board)
                (g.getGameEnded board)
              cases h2 : (memoStep t (g.stringRepresentation board)
                  (g.getGameEnded board)).Es (g.stringRepresentation board) with
              | none => rw [h2] at hsome; simp at hsome
              | some e0 =>
                  rw [h2] at he'
                  simp only [Option.getD_some] at he'
                  rw [he']
            have hb1 : ∃ b1, g.stringRepresentation b1 = g.stringRepresentation board
                ∧ g.getGameEnded b1 = 0 := by
              rcases hInv1.esOrigin _ 0 hEs0 with h1 | ⟨b1, hb1, hb1e⟩
              · exact absurd h1 (by norm_num)
              · exact ⟨b1, hb1, hb1e.symm⟩
            obtain ⟨b1, hb1s, hb1e⟩ := hb1
            have hbb : b0 = b1 := hInj (by rw [hb0, hb1s])
            have hLegal : ∃ j, j < g.getActionSize ∧ legalAt mask j = true := by
              obtain ⟨j, hj, hl⟩ := hContract b1 hb1e
              exact ⟨j, hj, by rw [hmask0, hbb]; exact hl⟩
            have hAct : ∃ j : ℕ, chosenAct g args
                (memoStep t (g.stringRepresentation board) (g.getGameEnded board))
                board = (j : ℤ) := by
              obtain ⟨j, hj, heq, _, _, _⟩ := selectAct_spec
                (ucb args (memoStep t (g.stringRepresentation board)
                  (g.getGameEnded board)) (g.stringRepresentation board)
                  (((memoStep t (g.stringRepresentation board)
                    (g.getGameEnded board)).Ps (g.stringRepresentation board)).getD []))
                (((memoStep t (g.stringRepresentation board)
                  (g.getGameEnded board)).Vs (g.stringRepresentation board)).getD [])
                g.getActionSize
                (by rw [hmask]
                    obtain ⟨j, hj, hl⟩ := hLegal
                    exact ⟨j, hj, by simpa using hl⟩)
              exact ⟨j, heq⟩
            obtain ⟨j, hAct⟩ := hAct
            have hne : ((s, -1) : String × ℤ) ≠ ((g.stringRepresentation board),
                chosenAct g args (memoStep t (g.stringRepresentation board)
                  (g.getGameEnded board)) board) := by
              rw [hAct]
              simp only [ne_eq, Prod.mk.injEq, not_and]
              intro _
              omega
            rw [backupStep_Nsa_ne _ _ _ _ _ hne]
            exact ih _ _ (depth + 1) hInv1 hNo1 s

/-- One simulation changes `Qsa` and `Nsa` only at the keys of its ghost
edge trace. -/
theorem searchAux_frame {S : Type} (g : Game S) (nnet : NNet S) (args : Args) :
    ∀ (fuel : ℕ) (t : Tables) (board : S) (depth : ℕ) (k : String × ℤ),
      k ∉ (searchAux g nnet args fuel t board depth).2.2 →
      (searchAux g nnet args fuel t board depth).1.Qsa k = t.Qsa k ∧
      (searchAux g nnet args fuel t board depth).1.Nsa k = t.Nsa k := by
  intro fuel
  induction fuel with
  | zero =>
      intro t board depth k _
      rw [searchAux_zero]
      exact ⟨rfl, rfl⟩
  | succ fuel ih =>
      intro t board depth k hk
      by_cases hd : args.maxMoves ≤ depth
      · rw [searchAux_guard g nnet args fuel t board depth hd]
        exact ⟨rfl, rfl⟩
      · by_cases he : ((memoStep t (g.stringRepresentation board)
            (g.getGameEnded board)).Es (g.stringRepresentation board)).getD 0 ≠ 0
        · rw [searchAux_term g nnet args fuel t board depth hd he]
          rw [memoStep_Qsa, memoStep_Nsa]
          exact ⟨rfl, rfl⟩
        · have he' : ((memoStep t (g.stringRepresentation board)
              (g.getGameEnded board)).Es (g.stringRepresentation board)).getD 0 = 0 :=
            not_not.mp he
          by_cases hp : ((memoStep t (g.stringRepresentation board)
              (g.getGameEnded board)).Ps (g.stringRepresentation board)).isNone = true
          · rw [searchAux_expand g nnet args fuel t board depth hd he' hp,
              expandStep_Qsa, expandStep_Nsa, memoStep_Qsa, memoStep_Nsa]
            exact ⟨rfl, rfl⟩
          · have hp' : ((memoStep t (g.stringRepresentation board)
                (g.getGameEnded board)).Ps (g.stringRepresentation board)).isNone
                = false := by
              cases h2 : ((memoStep t (g.stringRepresentation board)
                  (g.getGameEnded board)).Ps (g.stringRepresentation board)).isNone
              · rfl
              · exact absurd h2 hp
            rw [searchAux_internal g nnet args fuel t board depth hd he' hp'] at hk ⊢
            simp only [List.mem_cons, not_or] at hk
            obtain ⟨hk0, hktail⟩ := hk
            obtain ⟨hq, hn⟩ := ih (memoStep t (g.stringRepresentation board)
              (g.getGameEnded board))
              (nextBoard g board (chosenAct g args
                (memoStep t (g.stringRepresentation board) (g.getGameEnded board))
                board)) (depth + 1) k hktail
            rw [backupStep_Qsa_ne _ _ _ _ _ hk0, backupStep_Nsa_ne _ _ _ _ _ hk0]
            rw [hq, hn, memoStep_Qsa, memoStep_Nsa]
            exact ⟨rfl, rfl⟩

/-- The ghost edge trace is as long as the number of recursive descents,
bounded by the fuel. -/
theorem searchAux_pathlen {S : Type} (g : Game S) (nnet : NNet S) (args : Args) :
    ∀ (fuel : ℕ) (t : Tables) (board : S) (depth : ℕ),
      (searchAux g nnet args fuel t board depth).2.2.length ≤ fuel := by
  intro fuel
  induction fuel with
  | zero =>
      intro t board depth
      rw [searchAux_zero]
      simp
  | succ fuel ih =>
      intro t board depth
      by_cases hd : args.maxMoves ≤ depth
      · rw [searchAux_guard g nnet args fuel t board depth hd]; simp
      · by_cases he : ((memoStep t (g.stringRepresentation board)
            (g.getGameEnded board)).Es (g.stringRepresentation board)).getD 0 ≠ 0
        · rw [searchAux_term g nnet args fuel t board depth hd he]; simp
        · have he' : ((memoStep t (g.stringRepresentation board)
              (g.getGameEnded board)).Es (g.stringRepresentation board)).getD 0 = 0 :=
            not_not.mp he
          by_cases hp : ((memoStep t (g.stringRepresentation board)
              (g.getGameEnded board)).Ps (g.stringRepresentation board)).isNone = true
          · rw [searchAux_expand g nnet args fuel t board depth hd he' hp]; simp
          · have hp' : ((memoStep t (g.stringRepresentation board)
                (g.getGameEnded board)).Ps (g.stringRepresentation board)).isNone
                = false := by
              cases h2 : ((memoStep t (g.stringRepresentation board)
                  (g.getGameEnded board)).Ps (g.stringRepresentation board)).isNone
              · rfl
              · exact absurd h2 hp
            rw [searchAux_internal g nnet args fuel t board depth hd he' hp']
            simp only [List.length_cons]
            have := ih (memoStep t (g.stringRepresentation board)
              (g.getGameEnded board))
              (nextBoard g board (chosenAct g args
                (memoStep t (g.stringRepresentation board) (g.getGameEnded board))
                board)) (depth + 1)
            omega

/-- Backup along a fresh, repetition-free descent path: every edge on the
trace ends with visit count `1` and a value that is the returned value
sign-flipped once per ply (`(-1)^(i+1) * returned`). -/
theorem searchAux_path {S : Type} (g : Game S) (nnet : NNet S) (args : Args) :
    ∀ (fuel : ℕ) (t : Tables) (board : S) (depth : ℕ),
      (searchAux g nnet args fuel t board depth).2.2.Nodup →
      (∀ k ∈ (searchAux g nnet args fuel t board depth).2.2, t.Qsa k = none) →
      ∀ i < (searchAux g nnet args fuel t board depth).2.2.length,
        (searchAux g nnet args fuel t board depth).1.Nsa
          ((searchAux g nnet args fuel t board depth).2.2.getD i ("", 0)) = some 1 ∧
        (searchAux g nnet args fuel t board depth).1.Qsa
          ((searchAux g nnet args fuel t board depth).2.2.getD i ("", 0)) =
          some ((-1 : ℚ) ^ (i + 1) *
            (searchAux g nnet args fuel t board depth).2.1) := by
  intro fuel
  induction fuel with
  | zero =>
      intro t board depth _ _ i hi
      rw [searchAux_zero] at hi
      simp at hi
  | succ fuel ih =>
      intro t board depth hND hFresh i hi
      by_cases hd : args.maxMoves ≤ depth
      · rw [searchAux_guard g nnet args fuel t board depth hd] at hi
        simp at hi
      · by_cases he : ((memoStep t (g.stringRepresentation board)
            (g.getGameEnded board)).Es (g.stringRepresentation board)).getD 0 ≠ 0
        · rw [searchAux_term g nnet args fuel t board depth hd he] at hi
          simp at hi
        · have he' : ((memoStep t (g.stringRepresentation board)
              (g.getGameEnded board)).Es (g.stringRepresentation board)).getD 0 = 0 :=
            not_not.mp he
          by_cases hp : ((memoStep t (g.stringRepresentation board)
              (g.getGameEnded board)).Ps (g.stringRepresentation board)).isNone = true
          · rw [searchAux_expand g nnet args fuel t board depth hd he' hp] at hi
            simp at hi
          · have hp' : ((memoStep t (g.stringRepresentation board)
                (g.getGameEnded board)).Ps (g.stringRepresentation board)).isNone
                = false := by
              cases h2 : ((memoStep t (g.stringRepresentation board)
                  (g.getGameEnded board)).Ps (g.stringRepresentation board)).isNone
              · rfl
              · exact absurd h2 hp
            rw [searchAux_internal g nnet args fuel t board depth hd he' hp']
              at hND hFresh hi ⊢
            simp only [List.nodup_cons] at hND
            obtain ⟨hk0tail, hNDtail⟩ := hND
            have hFresh0 : t.Qsa ((g.stringRepresentation board),
                chosenAct g args (memoStep t (g.stringRepresentation board)
                  (g.getGameEnded board)) board) = none :=
              hFresh _ (List.mem_cons_self _ _)
            have hFreshTail : ∀ k ∈ (searchAux g nnet args fuel
                (memoStep t (g.stringRepresentation board) (g.getGameEnded board))
                (nextBoard g board (chosenAct g args
                  (memoStep t (g.stringRepresentation board) (g.getGameEnded board))
                  board)) (depth + 1)).2.2,
                (memoStep t (g.stringRepresentation board)
                  (g.getGameEnded board)).Qsa k = none := by
              intro k hk
              rw [memoStep_Qsa]
              exact hFresh k (List.mem_cons_of_mem _ hk)
            have hQ0 : (searchAux g nnet args fuel
                (memoStep t (g.stringRepresentation board) (g.getGameEnded board))
                (nextBoard g board (chosenAct g args
                  (memoStep t (g.stringRepresentation board) (g.getGameEnded board))
                  board)) (depth + 1)).1.Qsa ((g.stringRepresentation board),
                chosenAct g args (memoStep t (g.stringRepresentation board)
                  (g.getGameEnded board)) board) = none := by
              obtain ⟨hq, _⟩ := searchAux_frame g nnet args fuel
                (memoStep t (g.stringRepresentation board) (g.getGameEnded board))
                (nextBoard g board (chosenAct g args
                  (memoStep t (g.stringRepresentation board) (g.getGameEnded board))
                  board)) (depth + 1) _ hk0tail
              rw [hq, memoStep_Qsa]
              exact hFresh0
            match i with
            | 0 =>
                simp only [List.getD_cons_zero]
                refine ⟨backupStep_Nsa_self_fresh _ _ _ _ hQ0, ?_⟩
                rw [backupStep_Qsa_self_fresh _ _ _ _ hQ0]
                congr 1
                ring
            | i + 1 =>
                simp only [List.length_cons] at hi
                have hiTail : i < (searchAux g nnet args fuel
                    (memoStep t (g.stringRepresentation board) (g.getGameEnded board))
                    (nextBoard g board (chosenAct g args
                      (memoStep t (g.stringRepresentation board)
                        (g.getGameEnded board)) board)) (depth + 1)).2.2.length := by
                  omega
                obtain ⟨hN, hQ⟩ := ih (memoStep t (g.stringRepresentation board)
                  (g.getGameEnded board))
                  (nextBoard g board (chosenAct g args
                    (memoStep t (g.stringRepresentation board) (g.getGameEnded board))
                    board)) (depth + 1) hNDtail hFreshTail i hiTail
                have hmem : (searchAux g nnet args fuel
                    (memoStep t (g.stringRepresentation board) (g.getGameEnded board))
                    (nextBoard g board (chosenAct g args
                      (memoStep t (g.stringRepresentation board)
                        (g.getGameEnded board)) board)) (depth + 1)).2.2.getD i ("", 0)
                    ∈ (searchAux g nnet args fuel
                    (memoStep t (g.stringRepresentation board) (g.getGameEnded board))
                    (nextBoard g board (chosenAct g args
                      (memoStep t (g.stringRepresentation board)
                        (g.getGameEnded board)) board)) (depth + 1)).2.2 := by
                  rw [List.getD_eq_getElem _ _ hiTail]
                  exact List.getElem_mem hiTail
                have hne : (searchAux g nnet args fuel
                    (memoStep t (g.stringRepresentation board) (g.getGameEnded board))
                    (nextBoard g board (chosenAct g args
                      (memoStep t (g.stringRepresentation board)
                        (g.getGameEnded board)) board)) (depth + 1)).2.2.getD i ("", 0)
                    ≠ ((g.stringRepresentation board),
                      chosenAct g args (memoStep t (g.stringRepresentation board)
                        (g.getGameEnded board)) board) := by
                  intro hc
                  rw [hc] at hmem
                  exact hk0tail hmem
                simp only [List.getD_cons_succ]
                rw [backupStep_Nsa_ne _ _ _ _ _ hne, backupStep_Qsa_ne _ _ _ _ _ hne]
                refine ⟨hN, ?_⟩
                rw [hQ]
                congr 1
                rw [pow_succ]
                ring

theorem search_fst {S : Type} (g : Game S) (nnet : NNet S) (args : Args)
    (t : Tables) (board : S) (depth : ℕ) :
    (MCTS.search g nnet args t board depth).1 =
      (searchAux g nnet args (args.maxMoves - depth) t board depth).1 := rfl

theorem memoStep_of_some (t : Tables) (s : String) (e e0 : ℚ)
    (h : t.Es s = some e0) : memoStep t s e = t := by
  unfold memoStep
  rw [h]
  rfl

/-- The simulation loop preserves the invariant, never erases a `Vs`
entry, and never decreases an edge count. -/
theorem runSims_facts {S : Type} (g : Game S) (nnet : NNet S) (args : Args)
    (board : S) : ∀ (n : ℕ) (t : Tables), TInv g t →
    TInv g (runSims g nnet args n t board) ∧
    (∀ k c, t.Nsa k = some c →
      ∃ c', (runSims g nnet args n t board).Nsa k = some c' ∧ c ≤ c') ∧
    (∀ s mask, t.Vs s = some mask →
      (runSims g nnet args n t board).Vs s = some mask) := by
  intro n
  induction n with
  | zero =>
      intro t hInv
      exact ⟨hInv, fun k c h => ⟨c, h, le_refl c⟩, fun s mask h => h⟩
  | succ n ih =>
      intro t hInv
      obtain ⟨hInv1, hVs1, hPs1, hNsa1, _⟩ :=
        searchAux_preserves g nnet args (args.maxMoves - 0) t board 0 hInv
      obtain ⟨hInv2, hNsa2, hVs2⟩ := ih (MCTS.search g nnet args t board 0).1 hInv1
      refine ⟨hInv2, ?_, ?_⟩
      · intro k c h
        obtain ⟨m, hm, hcm⟩ := hNsa1 k c h
        obtain ⟨c', hc', hmc'⟩ := hNsa2 k m hm
        exact ⟨c', hc', le_trans hcm hmc'⟩
      · intro s mask h
        exact hVs2 s mask (hVs1 s mask h)

/-- The first simulation from fresh tables on a non-terminal root: the
root is expanded (prior policy, valid mask and zero visit count stored)
while no edge statistics exist yet. -/
theorem search_empty_expands {S : Type} (g : Game S) (nnet : NNet S) (args : Args)
    (board : S) (hMax : 1 ≤ args.maxMoves) (hNT : g.getGameEnded board = 0) :
    (MCTS.search g nnet args emptyTables board 0).1.Es
      (g.stringRepresentation board) = some 0 ∧
    ((MCTS.search g nnet args emptyTables board 0).1.Ps
      (g.stringRepresentation board)).isSome = true ∧
    (MCTS.search g nnet args emptyTables board 0).1.Vs
      (g.stringRepresentation board) = some (g.getValidMoves board) ∧
    (∀ k, (MCTS.search g nnet args emptyTables board 0).1.Nsa k = none) ∧
    TInv g (MCTS.search g nnet args emptyTables board 0).1 := by
  have hEs1 : (memoStep emptyTables (g.stringRepresentation board)
      (g.getGameEnded board)).Es (g.stringRepresentation board) = some 0 := by
    show upd emptyTables.Es (g.stringRepresentation board) (g.getGameEnded board)
      (g.stringRepresentation board) = some 0
    rw [upd_self, hNT]
  have hd : ¬args.maxMoves ≤ 0 := by omega
  have he' : ((memoStep emptyTables (g.stringRepresentation board)
      (g.getGameEnded board)).Es (g.stringRepresentation board)).getD 0 = 0 := by
    rw [hEs1]; rfl
  have hp : ((memoStep emptyTables (g.stringRepresentation board)
      (g.getGameEnded board)).Ps (g.stringRepresentation board)).isNone = true := by
    rw [memoStep_Ps]; rfl
  obtain ⟨m, hm⟩ : ∃ m, args.maxMoves - 0 = m + 1 :=
    ⟨args.maxMoves - 1, by omega⟩
  have hunf : (MCTS.search g nnet args emptyTables board 0).1 =
      (searchAux g nnet args (m + 1) emptyTables board 0).1 := by
    rw [search_fst, hm]
  rw [hunf, searchAux_expand g nnet args m emptyTables board 0 hd he' hp]
  refine ⟨?_, ?_, ?_, ?_, ?_⟩
  · rw [expandStep_Es]; exact hEs1
  · rw [expandStep_Ps_ap, upd_self]; rfl
  · rw [expandStep_Vs_ap, upd_self]
  · intro k
    rw [expandStep_Nsa, memoStep_Nsa]
    rfl
  · exact expandStep_inv g _ (memoStep_inv g emptyTables (tInv_empty g) board)
      board _ hp

/-- A simulation from an already-expanded, non-terminal root with a valid
action records (or bumps) an edge statistic for a valid in-range root
action. -/
theorem search_progress {S : Type} (g : Game S) (nnet : NNet S) (args : Args)
    (board : S) (t : Tables) (mask : List Bool) (hInv : TInv g t)
    (hMax : 1 ≤ args.maxMoves)
    (hEs : t.Es (g.stringRepresentation board) = some 0)
    (hPs : (t.Ps (g.stringRepresentation board)).isSome = true)
    (hVs : t.Vs (g.stringRepresentation board) = some mask)
    (hLegal : ∃ j, j < g.getActionSize ∧ legalAt mask j = true) :
    ∃ j c, j < g.getActionSize ∧ legalAt mask j = true ∧ 1 ≤ c ∧
      (MCTS.search g nnet args t board 0).1.Nsa
        ((g.stringRepresentation board), (j : ℤ)) = some c := by
  have hMemo : memoStep t (g.stringRepresentation board) (g.getGameEnded board)
      = t := memoStep_of_some t _ _ 0 hEs
  have hd : ¬args.maxMoves ≤ 0 := by omega
  have he' : ((memoStep t (g.stringRepresentation board)
      (g.getGameEnded board)).Es (g.stringRepresentation board)).getD 0 = 0 := by
    rw [hMemo, hEs]; rfl
  have hp' : ((memoStep t (g.stringRepresentation board)
      (g.getGameEnded board)).Ps (g.stringRepresentation board)).isNone = false := by
    rw [hMemo]
    cases h2 : t.Ps (g.stringRepresentation board)
    · rw [h2] at hPs; simp at hPs
    · rfl
  obtain ⟨m, hm⟩ : ∃ m, args.maxMoves - 0 = m + 1 :=
    ⟨args.maxMoves - 1, by omega⟩
  have hunf : (MCTS.search g nnet args t board 0).1 =
      (searchAux g nnet args (m + 1) t board 0).1 := by
    rw [search_fst, hm]
  obtain ⟨j, hj, heq, hlegal, _, _⟩ := selectAct_spec
    (ucb args (memoStep t (g.stringRepresentation board) (g.getGameEnded board))
      (g.stringRepresentation board)
      (((memoStep t (g.stringRepresentation board) (g.getGameEnded board)).Ps
        (g.stringRepresentation board)).getD []))
    (((memoStep t (g.stringRepresentation board) (g.getGameEnded board)).Vs
      (g.stringRepresentation board)).getD [])
    g.getActionSize
    (by rw [hMemo, hVs]
        obtain ⟨j, hj, hl⟩ := hLegal
        exact ⟨j, hj, by simpa using hl⟩)
  have hlegalMask : legalAt mask j = true := by
    rw [hMemo, hVs] at hlegal
    simpa using hlegal
  have hAct : chosenAct g args (memoStep t (g.stringRepresentation board)
      (g.getGameEnded board)) board = (j : ℤ) := heq
  obtain ⟨hInv2, _, _, _, _⟩ := searchAux_preserves g nnet args m
    (memoStep t (g.stringRepresentation board) (g.getGameEnded board))
    (nextBoard g board (chosenAct g args
      (memoStep t (g.stringRepresentation board) (g.getGameEnded board)) board))
    (0 + 1) (by rw [hMemo]; exact hInv)
  rw [hunf, searchAux_internal g nnet args m t board 0 hd he' hp']
  refine ⟨j, ((searchAux g nnet args m
      (memoStep t (g.stringRepresentation board) (g.getGameEnded board))
      (nextBoard g board (chosenAct g args
        (memoStep t (g.stringRepresentation board) (g.getGameEnded board)) board))
      (0 + 1)).1.Nsa ((g.stringRepresentation board),
        chosenAct g args (memoStep t (g.stringRepresentation board)
          (g.getGameEnded board)) board)).getD 0 + 1,
    hj, hlegalMask, by omega, ?_⟩
  rw [← hAct]
  exact backupStep_Nsa_self _ _ _ _ (hInv2.domQN _)

/-! ## Concrete collaborators for instantiating the theorems -/

/-- An `args` dictionary with `cpuct = 1`; `sqrtQ` and `powQ` are stand-ins
for the float library calls (the identity resp. `x ** 1`). -/
def testArgs (n mm : ℕ) : Args := ⟨n, 1, mm, fun q => q, fun x _ => (x : ℚ)⟩

/-- A one-position oracle: every action self-loops, outcome `0`. -/
def unitGame (valids : List Bool) : Game Unit :=
  ⟨valids.length, fun _ => "u", fun _ => 0, fun _ => valids,
   fun _ _ _ => ((), -1), fun _ _ => (), false, fun s _ => s⟩

def unitNNet (ps : List ℚ) : NNet Unit := ⟨fun _ => (ps, 0)⟩

/-- A two-position oracle: the start position has one action leading to a
won terminal position. -/
def chainGame : Game Bool :=
  ⟨1, fun b => if b then "b" else "a", fun b => if b then 1 else 0,
   fun _ => [true], fun _ _ _ => (true, -1), fun s _ => s, false, fun s _ => s⟩

def chainNNet : NNet Bool := ⟨fun _ => ([1], 1 / 3)⟩

/-! ## C6 — the depth guard -/

/-- C6 (amended): when `depth ≥ maxMoves`, `search` memoizes the small
fixed POSITIVE value `1e-4` in `Es[s]` and returns its negation `-1e-4`
(the small negative epsilon seen by the caller). -/
theorem C6_depth_guard {S : Type} (g : Game S) (nnet : NNet S) (args : Args)
    (t : Tables) (board : S) (depth : ℕ) (hd : args.maxMoves ≤ depth) :
    (MCTS.search g nnet args t board depth).1.Es (g.stringRepresentation board)
      = some (1 / 10000) ∧
    (MCTS.search g nnet args t board depth).2 = -(1 / 10000) ∧
    (0 : ℚ) < 1 / 10000 := by
  have hf : args.maxMoves - depth = 0 := Nat.sub_eq_zero_of_le hd
  have h1 : MCTS.searchFull g nnet args t board depth =
      (guardStep t (g.stringRepresentation board), -(1 / 10000), []) := by
    unfold MCTS.searchFull
    rw [hf, searchAux_zero]
  refine ⟨?_, ?_, by norm_num⟩
  · show (MCTS.searchFull g nnet args t board depth).1.Es
      (g.stringRepresentation board) = some (1 / 10000)
    rw [h1, guardStep_Es, if_pos rfl]
  · show (MCTS.searchFull g nnet args t board depth).2.1 = -(1 / 10000)
    rw [h1]

theorem C6_depth_guard_witness :
    (MCTS.search (unitGame [true]) (unitNNet [1]) (testArgs 0 1)
      emptyTables () 3).1.Es "u" = some (1 / 10000) ∧
    (MCTS.search (unitGame [true]) (unitNNet [1]) (testArgs 0 1)
      emptyTables () 3).2 = -(1 / 10000) ∧
    (0 : ℚ) < 1 / 10000 :=
  C6_depth_guard (unitGame [true]) (unitNNet [1]) (testArgs 0 1)
    emptyTables () 3 (by decide)

unseal Rat.mul Rat.add Rat.inv Rat.sub in
/-- C6 counterexample to the claim as stated: the memoized depth-limit
sentinel is `+1e-4`, which is not a negative value. -/
theorem C6_counterexample :
    (MCTS.search (unitGame [true]) (unitNNet [1]) (testArgs 0 1)
      emptyTables () 1).1.Es "u" = some (1 / 10000) ∧
    ¬((1 : ℚ) / 10000 < 0) := by
  constructor
  · decide
  · norm_num

/-! ## C7 — termination within `maxDepth` recursive calls -/

/-- C7: for every oracle (including one that never reports a terminal
state), a simulation from depth `0` terminates and its ghost trace — which
records exactly one entry per recursive descent made — has length at most
`maxMoves`: the recursion depth is bounded by the depth guard. -/
theorem C7_termination {S : Type} (g : Game S) (nnet : NNet S) (args : Args)
    (t : Tables) (board : S) :
    (MCTS.searchFull g nnet args t board 0).2.2.length ≤ args.maxMoves := by
  have h := searchAux_pathlen g nnet args (args.maxMoves - 0) t board 0
  simpa using h

/-! ## C5 — terminal-value memoization -/

/-- C5 (amended): a memoized `Es[s]` entry survives any simulation except
that the depth guard may overwrite it with the fixed sentinel `1e-4`; and
a revisit of a position whose memoized value is nonzero (below the depth
limit) returns the cached value negated and leaves the tables untouched. -/
theorem C5_es_memoization {S : Type} (g : Game S) (nnet : NNet S) (args : Args)
    (t : Tables) (board : S) (depth : ℕ) (hInv : TInv g t) :
    (∀ s e, t.Es s = some e →
      (MCTS.search g nnet args t board depth).1.Es s = some e ∨
      (MCTS.search g nnet args t board depth).1.Es s = some (1 / 10000)) ∧
    (∀ e, depth < args.maxMoves →
      t.Es (g.stringRepresentation board) = some e → e ≠ 0 →
      MCTS.search g nnet args t board depth = (t, -e)) := by
  constructor
  · intro s e h
    exact (searchAux_preserves g nnet args (args.maxMoves - depth) t board depth
      hInv).2.2.2.2 s e h
  · intro e hdlt hEs hne
    have hMemo := memoStep_of_some t (g.stringRepresentation board)
      (g.getGameEnded board) e hEs
    have he : ((memoStep t (g.stringRepresentation board)
        (g.getGameEnded board)).Es (g.stringRepresentation board)).getD 0 ≠ 0 := by
      rw [hMemo, hEs]
      simpa using hne
    obtain ⟨m, hm⟩ : ∃ m, args.maxMoves - depth = m + 1 :=
      ⟨args.maxMoves - depth - 1, by omega⟩
    have h1 : MCTS.searchFull g nnet args t board depth =
        (memoStep t (g.stringRepresentation board) (g.getGameEnded board),
          -((memoStep t (g.stringRepresentation board) (g.getGameEnded board)).Es
            (g.stringRepresentation board)).getD 0, []) := by
      unfold MCTS.searchFull
      rw [hm, searchAux_term g nnet args m t board depth (by omega) he]
    have h2 : MCTS.search g nnet args t board depth =
        ((MCTS.searchFull g nnet args t board depth).1,
         (MCTS.searchFull g nnet args t board depth).2.1) := rfl
    rw [h2, h1]
    rw [hMemo, hEs]
    simp

def tChainB : Tables :=
  (MCTS.search chainGame chainNNet (testArgs 0 5) emptyTables true 0).1

unseal Rat.mul Rat.add Rat.inv Rat.sub in
theorem C5_es_memoization_witness :
    MCTS.search chainGame chainNNet (testArgs 0 5) tChainB true 0 =
      (tChainB, -1) := by
  have hInv : TInv chainGame tChainB :=
    (searchAux_preserves chainGame chainNNet (testArgs 0 5)
      ((testArgs 0 5).maxMoves - 0) emptyTables true 0 (tInv_empty _)).1
  have h := (C5_es_memoization chainGame chainNNet (testArgs 0 5) tChainB true 0
    hInv).2 1 (by decide) (by decide) (by decide)
  simpa using h

def tLoop1 : Tables :=
  (MCTS.search (unitGame [true]) (unitNNet [1]) (testArgs 0 1)
    emptyTables () 0).1

unseal Rat.mul Rat.add Rat.inv Rat.sub in
/-- C5 counterexample to the claim as stated: the position key `"u"` is
memoized as non-terminal (`Es["u"] = 0`) by the first simulation, yet the
second simulation — whose descent self-loops into the depth guard —
overwrites the memoized value with the sentinel `1e-4`. -/
theorem C5_counterexample :
    tLoop1.Es "u" = some 0 ∧
    (MCTS.search (unitGame [true]) (unitNNet [1]) (testArgs 0 1)
      tLoop1 () 0).1.Es "u" ≠ some 0 := by
  constructor
  · decide
  · decide

/-! ## C9 — zero valid actions at a non-terminal expanded position -/

/-- C9 (amended): when the oracle reports zero valid actions at an
already-expanded, non-terminal position, the engine does NOT fail fast:
the selection loop keeps its `-1` sentinel initialization, the sentinel is
passed to `getNextState` as an action, the search continues and a backup
records edge statistics under the key `(s, -1)`. -/
theorem C9_no_valid_actions {S : Type} (g : Game S) (nnet : NNet S) (args : Args)
    (t : Tables) (board : S) (depth : ℕ) (hInv : TInv g t)
    (hd : depth < args.maxMoves)
    (hEs : t.Es (g.stringRepresentation board) = some 0)
    (hPs : (t.Ps (g.stringRepresentation board)).isSome = true)
    (hNoLegal : ∀ j < g.getActionSize,
      legalAt ((t.Vs (g.stringRepresentation board)).getD []) j = false) :
    ∃ t2 v rest, MCTS.searchFull g nnet args t board depth =
      (t2, v, ((g.stringRepresentation board), (-1 : ℤ)) :: rest) ∧
      (t2.Nsa ((g.stringRepresentation board), -1)).isSome = true := by
  have hMemo := memoStep_of_some t (g.stringRepresentation board)
    (g.getGameEnded board) 0 hEs
  have he' : ((memoStep t (g.stringRepresentation board)
      (g.getGameEnded board)).Es (g.stringRepresentation board)).getD 0 = 0 := by
    rw [hMemo, hEs]
    rfl
  have hp' : ((memoStep t (g.stringRepresentation board)
      (g.getGameEnded board)).Ps (g.stringRepresentation board)).isNone = false := by
    rw [hMemo]
    cases h2 : t.Ps (g.stringRepresentation board)
    · rw [h2] at hPs; simp at hPs
    · rfl
  have hAct : chosenAct g args (memoStep t (g.stringRepresentation board)
      (g.getGameEnded board)) board = -1 := by
    show selectAct _ _ _ = -1
    rw [hMemo]
    exact selectAct_none _ _ _ hNoLegal
  obtain ⟨m, hm⟩ : ∃ m, args.maxMoves - depth = m + 1 :=
    ⟨args.maxMoves - depth - 1, by omega⟩
  have h1 : MCTS.searchFull g nnet args t board depth =
      searchAux g nnet args (m + 1) t board depth := by
    unfold MCTS.searchFull
    rw [hm]
  rw [h1, searchAux_internal g nnet args m t board depth (by omega) he' hp']
  obtain ⟨hInv2, _, _, _, _⟩ := searchAux_preserves g nnet args m
    (memoStep t (g.stringRepresentation board) (g.getGameEnded board))
    (nextBoard g board (chosenAct g args
      (memoStep t (g.stringRepresentation board) (g.getGameEnded board)) board))
    (depth + 1) (by rw [hMemo]; exact hInv)
  refine ⟨_, _, _, by rw [hAct], ?_⟩
  rw [← hAct, backupStep_Nsa_self _ _ _ _ (hInv2.domQN _)]
  rfl

def tStuck : Tables :=
  (MCTS.search (unitGame [false, false]) (unitNNet [1/2, 1/2]) (testArgs 0 3)
    emptyTables () 0).1

unseal Rat.mul Rat.add Rat.inv Rat.sub in
theorem C9_no_valid_actions_witness :
    ∃ t2 v rest, MCTS.searchFull (unitGame [false, false]) (unitNNet [1/2, 1/2])
      (testArgs 0 3) tStuck () 0 = (t2, v, ("u", (-1 : ℤ)) :: rest) ∧
      (t2.Nsa ("u", -1)).isSome = true := by
  have hInv : TInv (unitGame [false, false]) tStuck :=
    (searchAux_preserves (unitGame [false, false]) (unitNNet [1/2, 1/2])
      (testArgs 0 3) ((testArgs 0 3).maxMoves - 0) emptyTables () 0
      (tInv_empty _)).1
  exact C9_no_valid_actions (unitGame [false, false]) (unitNNet [1/2, 1/2])
    (testArgs 0 3) tStuck () 0 hInv (by decide) (by decide) (by decide)
    (by decide)

unseal Rat.mul Rat.add Rat.inv Rat.sub in
/-- C9 counterexample to the claim as stated: a non-terminal position with
zero valid actions does not make the engine fail — it records a visit for
the `-1` sentinel edge and carries on. -/
theorem C9_counterexample :
    (unitGame [false, false]).getGameEnded () = 0 ∧
    (∀ j < (unitGame [false, false]).getActionSize,
      legalAt ((unitGame [false, false]).getValidMoves ()) j = false) ∧
    ((MCTS.search (unitGame [false, false]) (unitNNet [1/2, 1/2]) (testArgs 0 3)
      tStuck () 0).1.Nsa ("u", -1)).isSome = true := by
  refine ⟨rfl, ?_, ?_⟩
  · decide
  · decide

/-! ## C3 — UCB action selection -/

/-- C3: at an internal node (expanded, non-terminal, below the depth
limit), the action placed at the head of the descent trace is a valid
in-range index that maximizes the UCB score `ucb` (which is
`Qsa + cpuct * Ps[s][a] * sqrt(Ns[s]) / (1 + Nsa[(s,a)])` for visited
edges and `cpuct * Ps[s][a] * sqrt(Ns[s] + EPS)` for unvisited ones), and
on exact ties the lowest-indexed maximizing action wins: every earlier
valid action scores strictly less. -/
theorem C3_selection_maximizes {S : Type} (g : Game S) (nnet : NNet S)
    (args : Args) (t : Tables) (board : S) (depth : ℕ) (mask : List Bool)
    (ps : List ℚ)
    (hd : depth < args.maxMoves)
    (hEs : t.Es (g.stringRepresentation board) = some 0)
    (hPs : t.Ps (g.stringRepresentation board) = some ps)
    (hVs : t.Vs (g.stringRepresentation board) = some mask)
    (hLegal : ∃ j, j < g.getActionSize ∧ legalAt mask j = true) :
    ∃ j rest, j < g.getActionSize ∧ legalAt mask j = true ∧
      (MCTS.searchFull g nnet args t board depth).2.2 =
        ((g.stringRepresentation board), (j : ℤ)) :: rest ∧
      (∀ a < g.getActionSize, legalAt mask a = true →
        ucb args t (g.stringRepresentation board) ps a ≤
          ucb args t (g.stringRepresentation board) ps j) ∧
      (∀ a < j, legalAt mask a = true →
        ucb args t (g.stringRepresentation board) ps a <
          ucb args t (g.stringRepresentation board) ps j) := by
  have hMemo := memoStep_of_some t (g.stringRepresentation board)
    (g.getGameEnded board) 0 hEs
  have he' : ((memoStep t (g.stringRepresentation board)
      (g.getGameEnded board)).Es (g.stringRepresentation board)).getD 0 = 0 := by
    rw [hMemo, hEs]; rfl
  have hp' : ((memoStep t (g.stringRepresentation board)
      (g.getGameEnded board)).Ps (g.stringRepresentation board)).isNone = false := by
    rw [hMemo, hPs]; rfl
  obtain ⟨j, hj, heq, hl, hmax, hstr⟩ := selectAct_spec
    (ucb args t (g.stringRepresentation board) ps) mask g.getActionSize hLegal
  have hAct : chosenAct g args (memoStep t (g.stringRepresentation board)
      (g.getGameEnded board)) board = (j : ℤ) := by
    show selectAct (ucb args (memoStep t (g.stringRepresentation board)
        (g.getGameEnded board)) (g.stringRepresentation board)
        (((memoStep t (g.stringRepresentation board) (g.getGameEnded board)).Ps
          (g.stringRepresentation board)).getD []))
      (((memoStep t (g.stringRepresentation board) (g.getGameEnded board)).Vs
        (g.stringRepresentation board)).getD []) g.getActionSize = (j : ℤ)
    rw [hMemo, hPs, hVs]
    exact heq
  obtain ⟨m, hm⟩ : ∃ m, args.maxMoves - depth = m + 1 :=
    ⟨args.maxMoves - depth - 1, by omega⟩
  have h1 : MCTS.searchFull g nnet args t board depth =
      searchAux g nnet args (m + 1) t board depth := by
    unfold MCTS.searchFull
    rw [hm]
  rw [h1, searchAux_internal g nnet args m t board depth (by omega) he' hp']
  exact ⟨j, (searchAux g nnet args m
    (memoStep t (g.stringRepresentation board) (g.getGameEnded board))
    (nextBoard g board (chosenAct g args
      (memoStep t (g.stringRepresentation board) (g.getGameEnded board)) board))
    (depth + 1)).2.2, hj, hl, by rw [hAct], hmax, hstr⟩

def tPair : Tables :=
  (MCTS.search (unitGame [true, true]) (unitNNet [1/2, 1/2]) (testArgs 0 3)
    emptyTables () 0).1

unseal Rat.mul Rat.add Rat.inv Rat.sub in
theorem C3_selection_maximizes_witness :
    ∃ j rest, j < (unitGame [true, true]).getActionSize ∧
      legalAt [true, true] j = true ∧
      (MCTS.searchFull (unitGame [true, true]) (unitNNet [1/2, 1/2])
        (testArgs 0 3) tPair () 0).2.2 = ("u", (j : ℤ)) :: rest ∧
      (∀ a < (unitGame [true, true]).getActionSize, legalAt [true, true] a = true →
        ucb (testArgs 0 3) tPair "u" [1/2, 1/2] a ≤
          ucb (testArgs 0 3) tPair "u" [1/2, 1/2] j) ∧
      (∀ a < j, legalAt [true, true] a = true →
        ucb (testArgs 0 3) tPair "u" [1/2, 1/2] a <
          ucb (testArgs 0 3) tPair "u" [1/2, 1/2] j) :=
  C3_selection_maximizes (unitGame [true, true]) (unitNNet [1/2, 1/2])
    (testArgs 0 3) tPair () 0 [true, true] [1/2, 1/2]
    (by decide) (by decide) (by decide) (by decide) ⟨0, by decide, by decide⟩

/-! ## C2 — backup along the descent path -/

/-- C2: after one simulation whose descent trace consists of pairwise
distinct, previously-unvisited edges, every edge on the trace has visit
count `1` and value `(-1)^(i+1) * v` — the leaf value propagated up with a
sign flip per ply — where `v` is the value the simulation returns for the
root; and in general the backup updates a visited edge to the running mean
`(Nsa*Qsa + v)/(Nsa + 1)` with incremented counts, sets `Qsa = v` with
count `1` on a first visit, and always increments `Ns[s]`. -/
theorem C2_backup_correctness {S : Type} (g : Game S) (nnet : NNet S)
    (args : Args) (t : Tables) (board : S) (depth : ℕ) (t2 : Tables) (v : ℚ)
    (p : List (String × ℤ))
    (hres : MCTS.searchFull g nnet args t board depth = (t2, v, p))
    (hND : p.Nodup)
    (hFresh : ∀ k ∈ p, t.Qsa k = none) :
    MCTS.search g nnet args t board depth = (t2, v) ∧
    (∀ i < p.length, t2.Nsa (p.getD i ("", 0)) = some 1 ∧
      t2.Qsa (p.getD i ("", 0)) = some ((-1 : ℚ) ^ (i + 1) * v)) ∧
    (∀ (u : Tables) (s : String) (a : ℤ) (w q : ℚ) (n : ℕ),
      u.Qsa (s, a) = some q → u.Nsa (s, a) = some n →
      (backupStep u s a w).Qsa (s, a) = some (((n : ℚ) * q + w) / ((n : ℚ) + 1)) ∧
      (backupStep u s a w).Nsa (s, a) = some (n + 1)) ∧
    (∀ (u : Tables) (s : String) (a : ℤ) (w : ℚ), u.Qsa (s, a) = none →
      (backupStep u s a w).Qsa (s, a) = some w ∧
      (backupStep u s a w).Nsa (s, a) = some 1) ∧
    (∀ (u : Tables) (s : String) (a : ℤ) (w : ℚ),
      (backupStep u s a w).Ns s = some ((u.Ns s).getD 0 + 1)) := by
  have hres' : searchAux g nnet args (args.maxMoves - depth) t board depth
      = (t2, v, p) := hres
  refine ⟨?_, ?_, ?_, ?_, ?_⟩
  · have h2 : MCTS.search g nnet args t board depth =
        ((MCTS.searchFull g nnet args t board depth).1,
         (MCTS.searchFull g nnet args t board depth).2.1) := rfl
    rw [h2, hres]
  · have hpath := searchAux_path g nnet args (args.maxMoves - depth) t board depth
    rw [hres'] at hpath
    intro i hi
    exact hpath hND hFresh i hi
  · intro u s a w q n hq hn
    exact ⟨backupStep_Qsa_self_mean u s a w q n hq hn,
      backupStep_Nsa_self_mean u s a w q n hq hn⟩
  · intro u s a w hq
    exact ⟨backupStep_Qsa_self_fresh u s a w hq,
      backupStep_Nsa_self_fresh u s a w hq⟩
  · intro u s a w
    exact backupStep_Ns_self u s a w

def tChainA : Tables :=
  (MCTS.search chainGame chainNNet (testArgs 0 5) emptyTables false 0).1

unseal Rat.mul Rat.add Rat.inv Rat.sub in
theorem C2_backup_correctness_witness :
    MCTS.search chainGame chainNNet (testArgs 0 5) tChainA false 0 =
      ((MCTS.searchFull chainGame chainNNet (testArgs 0 5) tChainA false 0).1,
       (MCTS.searchFull chainGame chainNNet (testArgs 0 5) tChainA false 0).2.1) ∧
    (∀ i < (MCTS.searchFull chainGame chainNNet (testArgs 0 5)
        tChainA false 0).2.2.length,
      (MCTS.searchFull chainGame chainNNet (testArgs 0 5) tChainA false 0).1.Nsa
        ((MCTS.searchFull chainGame chainNNet (testArgs 0 5)
          tChainA false 0).2.2.getD i ("", 0)) = some 1 ∧
      (MCTS.searchFull chainGame chainNNet (testArgs 0 5) tChainA false 0).1.Qsa
        ((MCTS.searchFull chainGame chainNNet (testArgs 0 5)
          tChainA false 0).2.2.getD i ("", 0)) =
        some ((-1 : ℚ) ^ (i + 1) *
          (MCTS.searchFull chainGame chainNNet (testArgs 0 5)
            tChainA false 0).2.1)) ∧
    (∀ (u : Tables) (s : String) (a : ℤ) (w q : ℚ) (n : ℕ),
      u.Qsa (s, a) = some q → u.Nsa (s, a) = some n →
      (backupStep u s a w).Qsa (s, a) = some (((n : ℚ) * q + w) / ((n : ℚ) + 1)) ∧
      (backupStep u s a w).Nsa (s, a) = some (n + 1)) ∧
    (∀ (u : Tables) (s : String) (a : ℤ) (w : ℚ), u.Qsa (s, a) = none →
      (backupStep u s a w).Qsa (s, a) = some w ∧
      (backupStep u s a w).Nsa (s, a) = some 1) ∧
    (∀ (u : Tables) (s : String) (a : ℤ) (w : ℚ),
      (backupStep u s a w).Ns s = some ((u.Ns s).getD 0 + 1)) :=
  C2_backup_correctness chainGame chainNNet (testArgs 0 5) tChainA false 0
    _ _ _ rfl (by decide) (by decide)

theorem memoStep_of_none (t : Tables) (s : String) (e : ℚ)
    (h : t.Es s = none) : (memoStep t s e).Es s = some e := by
  unfold memoStep
  rw [h]
  show upd t.Es s e s = some e
  exact upd_self _ _ _

/-! ## C10 — selected actions are valid -/

/-- C10: whenever the stored valid mask marks at least one in-range action
valid, the selection loop returns a valid in-range action (the `-1`
sentinel is unreachable); consequently — under the oracle contract and an
injective key — every `(s, a)` key ever present in the edge statistics
after a simulation pairs the position with an in-range action marked valid
by the mask stored at that position's expansion. -/
theorem C10_selected_actions_legal {S : Type} (g : Game S) (nnet : NNet S)
    (args : Args)
    (hInj : Function.Injective g.stringRepresentation)
    (hContract : ∀ b : S, g.getGameEnded b = 0 →
      ∃ j, j < g.getActionSize ∧ legalAt (g.getValidMoves b) j = true)
    (t : Tables) (board : S) (depth : ℕ)
    (hInv : TInv g t) (hNo : ∀ s, t.Nsa (s, -1) = none) :
    (∀ (score : ℕ → ℚ) (valids : List Bool) (size : ℕ),
      (∃ j, j < size ∧ legalAt valids j = true) →
      ∃ j, j < size ∧ selectAct score valids size = (j : ℤ) ∧
        legalAt valids j = true) ∧
    (∀ s a, ((MCTS.search g nnet args t board depth).1.Nsa (s, a)).isSome = true →
      ∃ j : ℕ, a = (j : ℤ) ∧ j < g.getActionSize ∧
        ∃ mask, (MCTS.search g nnet args t board depth).1.Vs s = some mask ∧
          legalAt mask j = true) := by
  constructor
  · intro score valids size hex
    obtain ⟨j, hj, heq, hl, _, _⟩ := selectAct_spec score valids size hex
    exact ⟨j, hj, heq, hl⟩
  · intro s a h
    have hInvF := (searchAux_preserves g nnet args (args.maxMoves - depth)
      t board depth hInv).1
    have hNoF := searchAux_noSentinel g nnet args hInj hContract
      (args.maxMoves - depth) t board depth hInv hNo s
    rcases hInvF.nsaLegal s a h with h1 | ⟨j, h1, h2, mask, h3, h4⟩
    · subst h1
      have h2 : (MCTS.search g nnet args t board depth).1.Nsa (s, -1) = none := hNoF
      rw [h2] at h
      simp at h
    · exact ⟨j, h1, h2, mask, h3, h4⟩

theorem C10_selected_actions_legal_witness :
    (∀ (score : ℕ → ℚ) (valids : List Bool) (size : ℕ),
      (∃ j, j < size ∧ legalAt valids j = true) →
      ∃ j, j < size ∧ selectAct score valids size = (j : ℤ) ∧
        legalAt valids j = true) ∧
    (∀ s a, ((MCTS.search (unitGame [true, true]) (unitNNet [1/2, 1/2])
        (testArgs 0 3) emptyTables () 0).1.Nsa (s, a)).isSome = true →
      ∃ j : ℕ, a = (j : ℤ) ∧ j < (unitGame [true, true]).getActionSize ∧
        ∃ mask, (MCTS.search (unitGame [true, true]) (unitNNet [1/2, 1/2])
          (testArgs 0 3) emptyTables () 0).1.Vs s = some mask ∧
          legalAt mask j = true) :=
  C10_selected_actions_legal (unitGame [true, true]) (unitNNet [1/2, 1/2])
    (testArgs 0 3) (fun _ _ _ => rfl)
    (fun b _ => ⟨0, by decide, rfl⟩)
    emptyTables () 0 (tInv_empty _) (fun _ => rfl)

/-! ## C4 — expansion-time policy masking -/

/-- C4 (amended): expansion stores exactly `maskAndNormalize raw valids`
together with the valid mask and a zero visit count; and for every
NONNEGATIVE raw evaluator vector of action-space length with at least one
valid action, the stored policy has zero mass on every invalid action and
total mass `1`, and when the masked policy sums to zero it is the uniform
distribution `1/#valid` over the valid actions. -/
theorem C4_policy_masking {S : Type} (g : Game S) (nnet : NNet S) (args : Args)
    (t : Tables) (board : S) (depth : ℕ)
    (hd : depth < args.maxMoves)
    (hNT : g.getGameEnded board = 0)
    (hEs : t.Es (g.stringRepresentation board) = none ∨
      t.Es (g.stringRepresentation board) = some 0)
    (hPs : t.Ps (g.stringRepresentation board) = none) :
    ((MCTS.search g nnet args t board depth).1.Ps (g.stringRepresentation board) =
      some (maskAndNormalize (rawPred g nnet board).1 (g.getValidMoves board)) ∧
     (MCTS.search g nnet args t board depth).1.Vs (g.stringRepresentation board) =
      some (g.getValidMoves board) ∧
     (MCTS.search g nnet args t board depth).1.Ns (g.stringRepresentation board) =
      some 0) ∧
    (∀ (ps : List ℚ) (valids : List Bool), (∀ x ∈ ps, 0 ≤ x) →
      ps.length = valids.length →
      (∃ j, j < valids.length ∧ legalAt valids j = true) →
      (maskAndNormalize ps valids).length = valids.length ∧
      (∀ a < valids.length, legalAt valids a = false →
        (maskAndNormalize ps valids).getD a 0 = 0) ∧
      (maskAndNormalize ps valids).sum = 1 ∧
      ((maskPolicy ps valids).sum = 0 → ∀ a < valids.length,
        (maskAndNormalize ps valids).getD a 0 =
          if legalAt valids a = true
          then 1 / ((valids.count true : ℕ) : ℚ) else 0)) := by
  constructor
  · have he1 : (memoStep t (g.stringRepresentation board)
        (g.getGameEnded board)).Es (g.stringRepresentation board) = some 0 := by
      rcases hEs with h | h
      · rw [← hNT]
        exact memoStep_of_none t _ _ h
      · rw [memoStep_of_some t _ _ 0 h]
        exact h
    have he' : ((memoStep t (g.stringRepresentation board)
        (g.getGameEnded board)).Es (g.stringRepresentation board)).getD 0 = 0 := by
      rw [he1]; rfl
    have hp : ((memoStep t (g.stringRepresentation board)
        (g.getGameEnded board)).Ps (g.stringRepresentation board)).isNone = true := by
      rw [memoStep_Ps, hPs]; rfl
    obtain ⟨m, hm⟩ : ∃ m, args.maxMoves - depth = m + 1 :=
      ⟨args.maxMoves - depth - 1, by omega⟩
    have h1 : (MCTS.search g nnet args t board depth).1 =
        (searchAux g nnet args (m + 1) t board depth).1 := by
      rw [search_fst, hm]
    rw [h1, searchAux_expand g nnet args m t board depth (by omega) he' hp]
    refine ⟨?_, ?_, ?_⟩
    · rw [expandStep_Ps_ap, upd_self]
    · rw [expandStep_Vs_ap, upd_self]
    · rw [expandStep_Ns_ap, upd_self]
  · intro ps valids hnn hLen hLegal
    exact maskAndNormalize_spec ps valids hnn hLen hLegal

unseal Rat.mul Rat.add Rat.inv Rat.sub in
theorem C4_policy_masking_witness :
    ((MCTS.search (unitGame [true, false]) (unitNNet [1/2, 1/2]) (testArgs 0 3)
        emptyTables () 0).1.Ps "u" =
      some (maskAndNormalize
        (rawPred (unitGame [true, false]) (unitNNet [1/2, 1/2]) ()).1
        ((unitGame [true, false]).getValidMoves ())) ∧
     (MCTS.search (unitGame [true, false]) (unitNNet [1/2, 1/2]) (testArgs 0 3)
        emptyTables () 0).1.Vs "u" =
      some ((unitGame [true, false]).getValidMoves ()) ∧
     (MCTS.search (unitGame [true, false]) (unitNNet [1/2, 1/2]) (testArgs 0 3)
        emptyTables () 0).1.Ns "u" = some 0) ∧
    (∀ (ps : List ℚ) (valids : List Bool), (∀ x ∈ ps, 0 ≤ x) →
      ps.length = valids.length →
      (∃ j, j < valids.length ∧ legalAt valids j = true) →
      (maskAndNormalize ps valids).length = valids.length ∧
      (∀ a < valids.length, legalAt valids a = false →
        (maskAndNormalize ps valids).getD a 0 = 0) ∧
      (maskAndNormalize ps valids).sum = 1 ∧
      ((maskPolicy ps valids).sum = 0 → ∀ a < valids.length,
        (maskAndNormalize ps valids).getD a 0 =
          if legalAt valids a = true
          then 1 / ((valids.count true : ℕ) : ℚ) else 0)) :=
  C4_policy_masking (unitGame [true, false]) (unitNNet [1/2, 1/2]) (testArgs 0 3)
    emptyTables () 0 (by decide) rfl (Or.inl rfl) rfl

unseal Rat.mul Rat.add Rat.inv Rat.sub in
/-- C4 counterexample to the claim as stated ("for every raw evaluator
output"): with the raw policy `[1, -1]` and both actions valid, the masked
sum is zero, yet the uniform-fallback path stores `[1, 0]`, not the
uniform distribution `[1/2, 1/2]` over the two valid actions. -/
theorem C4_counterexample :
    (maskPolicy [1, -1] [true, true]).sum = 0 ∧
    (MCTS.search (unitGame [true, true]) (unitNNet [1, -1]) (testArgs 0 3)
      emptyTables () 0).1.Ps "u" = some [1, 0] ∧
    ([1, 0] : List ℚ) ≠ [1/2, 1/2] := by
  refine ⟨by decide, by decide, by decide⟩

/-! ## C8 — node visit count equals the sum of edge visit counts -/

/-- C8: under the oracle contract and an injective key, after any
simulation from well-formed sentinel-free tables, every expanded position
satisfies `Ns[s] = sum over the action space of Nsa[(s,a)]`; expansion
initializes `Ns[s] = 0`, and backups keep the identity because node and
edge counters are incremented together. -/
theorem C8_visit_count_sum {S : Type} (g : Game S) (nnet : NNet S) (args : Args)
    (hInj : Function.Injective g.stringRepresentation)
    (hContract : ∀ b : S, g.getGameEnded b = 0 →
      ∃ j, j < g.getActionSize ∧ legalAt (g.getValidMoves b) j = true)
    (t : Tables) (board : S) (depth : ℕ)
    (hInv : TInv g t) (hNo : ∀ s, t.Nsa (s, -1) = none) :
    (∀ s n, (MCTS.search g nnet args t board depth).1.Ns s = some n →
      n = ∑ a ∈ Finset.range g.getActionSize,
        ((MCTS.search g nnet args t board depth).1.Nsa (s, (a : ℤ))).getD 0) ∧
    TInv g (MCTS.search g nnet args t board depth).1 ∧
    (∀ s, (MCTS.search g nnet args t board depth).1.Nsa (s, -1) = none) ∧
    (∀ (u : Tables) (s : String) (raw : List ℚ) (valids : List Bool),
      (expandStep u s raw valids).Ns s = some 0) := by
  have hInvF := (searchAux_preserves g nnet args (args.maxMoves - depth)
    t board depth hInv).1
  have hNoF := searchAux_noSentinel g nnet args hInj hContract
    (args.maxMoves - depth) t board depth hInv hNo
  refine ⟨?_, hInvF, hNoF, ?_⟩
  · intro s n h
    have hs := hInvF.nsSum s n h
    rw [hNoF s] at hs
    simpa using hs
  · intro u s raw valids
    rw [expandStep_Ns_ap, upd_self]

theorem C8_visit_count_sum_witness :
    (∀ s n, (MCTS.search (unitGame [true, true]) (unitNNet [1/2, 1/2])
        (testArgs 0 3) emptyTables () 0).1.Ns s = some n →
      n = ∑ a ∈ Finset.range (unitGame [true, true]).getActionSize,
        ((MCTS.search (unitGame [true, true]) (unitNNet [1/2, 1/2])
          (testArgs 0 3) emptyTables () 0).1.Nsa (s, (a : ℤ))).getD 0) ∧
    TInv (unitGame [true, true]) (MCTS.search (unitGame [true, true])
      (unitNNet [1/2, 1/2]) (testArgs 0 3) emptyTables () 0).1 ∧
    (∀ s, (MCTS.search (unitGame [true, true]) (unitNNet [1/2, 1/2])
      (testArgs 0 3) emptyTables () 0).1.Nsa (s, -1) = none) ∧
    (∀ (u : Tables) (s : String) (raw : List ℚ) (valids : List Bool),
      (expandStep u s raw valids).Ns s = some 0) :=
  C8_visit_count_sum (unitGame [true, true]) (unitNNet [1/2, 1/2])
    (testArgs 0 3) (fun _ _ _ => rfl)
    (fun b _ => ⟨0, by decide, rfl⟩)
    emptyTables () 0 (tInv_empty _) (fun _ => rfl)

/-! ## C1 — the output action distribution -/

/-- The root visit-count vector read off by `getActionProb` (line 39 of
`mcts.py`) after the simulation loop. -/
def rootCounts {S : Type} (g : Game S) (nnet : NNet S) (args : Args)
    (t : Tables) (board : S) : List ℕ :=
  (List.range g.getActionSize).map (fun a : ℕ =>
    ((runSims g nnet args args.numMCTSSims t board).Nsa
      (g.stringRepresentation board, (a : ℤ))).getD 0)

theorem rootCounts_getD {S : Type} (g : Game S) (nnet : NNet S) (args : Args)
    (t : Tables) (board : S) (a : ℕ) (ha : a < g.getActionSize) :
    (rootCounts g nnet args t board).getD a 0 =
      ((runSims g nnet args args.numMCTSSims t board).Nsa
        (g.stringRepresentation board, (a : ℤ))).getD 0 := by
  unfold rootCounts
  exact getD_map_range _ _ _ _ ha

theorem rootCounts_length {S : Type} (g : Game S) (nnet : NNet S) (args : Args)
    (t : Tables) (board : S) :
    (rootCounts g nnet args t board).length = g.getActionSize := by
  unfold rootCounts
  simp

theorem getActionProb_temp_zero {S : Type} (g : Game S) (nnet : NNet S)
    (args : Args) (t : Tables) (board : S) (temp : ℚ) (ht : temp = 0) :
    MCTS.getActionProb g nnet args t board temp =
      (List.range (rootCounts g nnet args t board).length).map
        (fun i => if i = argmaxFirst (rootCounts g nnet args t board)
          then (1 : ℚ) else 0) := by
  simp only [MCTS.getActionProb, rootCounts]
  rw [if_pos ht]

theorem getActionProb_temp_ne {S : Type} (g : Game S) (nnet : NNet S)
    (args : Args) (t : Tables) (board : S) (temp : ℚ) (ht : ¬temp = 0) :
    MCTS.getActionProb g nnet args t board temp =
      ((rootCounts g nnet args t board).map (fun x => args.powQ x temp)).map
        (fun x => x /
          ((rootCounts g nnet args t board).map (fun x => args.powQ x temp)).sum) := by
  simp only [MCTS.getActionProb, rootCounts]
  rw [if_neg ht]

/-- Facts about the one-hot vector built in the `temp == 0` branch. -/
theorem oneHot_facts (C : List ℕ) (hne : C ≠ []) :
    ((List.range C.length).map
      (fun i => if i = argmaxFirst C then (1 : ℚ) else 0)).length = C.length ∧
    (∀ q ∈ (List.range C.length).map
      (fun i => if i = argmaxFirst C then (1 : ℚ) else 0), 0 ≤ q) ∧
    ((List.range C.length).map
      (fun i => if i = argmaxFirst C then (1 : ℚ) else 0)).sum = 1 ∧
    (∀ a < C.length, a ≠ argmaxFirst C →
      ((List.range C.length).map
        (fun i => if i = argmaxFirst C then (1 : ℚ) else 0)).getD a 0 = 0) := by
  obtain ⟨hbLt, _⟩ := argmaxFirst_spec C hne
  refine ⟨by simp, ?_, sum_indicator_range C.length (argmaxFirst C) hbLt, ?_⟩
  · intro q hq
    obtain ⟨i, _, rfl⟩ := List.mem_map.mp hq
    split
    · norm_num
    · norm_num
  · intro a ha hab
    rw [getD_map_range _ _ _ _ ha, if_neg hab]

/-- Facts about the normalized power vector built in the `temp != 0`
branch, assuming some entry is positive and the power function sends `0`
to `0`, is nonnegative, and is positive on positive counts. -/
theorem powNorm_facts (C : List ℕ) (pw : ℕ → ℚ)
    (hPow0 : pw 0 = 0) (hPowNN : ∀ x, 0 ≤ pw x)
    (hPowPos : ∀ x, 0 < x → 0 < pw x)
    (j : ℕ) (hj : j < C.length) (hcj : 1 ≤ C.getD j 0) :
    ((C.map pw).map (fun x => x / (C.map pw).sum)).length = C.length ∧
    (∀ q ∈ (C.map pw).map (fun x => x / (C.map pw).sum), 0 ≤ q) ∧
    ((C.map pw).map (fun x => x / (C.map pw).sum)).sum = 1 ∧
    (∀ a < C.length, C.getD a 0 = 0 →
      ((C.map pw).map (fun x => x / (C.map pw).sum)).getD a 0 = 0) := by
  have hDnn : ∀ x ∈ C.map pw, 0 ≤ x := by
    intro x hx
    obtain ⟨c, _, rfl⟩ := List.mem_map.mp hx
    exact hPowNN c
  have hDlen : (C.map pw).length = C.length := by simp
  have hDj : (C.map pw).getD j 0 = pw (C.getD j 0) :=
    getD_map_of_lt pw C j 0 0 hj
  have hDjpos : 0 < (C.map pw).getD j 0 := by
    rw [hDj]
    exact hPowPos _ (by omega)
  have hS : 0 < (C.map pw).sum :=
    lt_of_lt_of_le hDjpos (getD_le_sum _ hDnn j (by omega))
  refine ⟨by simp, ?_, ?_, ?_⟩
  · intro q hq
    obtain ⟨x, hx, rfl⟩ := List.mem_map.mp hq
    exact div_nonneg (hDnn x hx) (le_of_lt hS)
  · rw [sum_map_div, div_self (ne_of_gt hS)]
  · intro a ha hz
    have ha2 : a < (C.map pw).length := by omega
    rw [getD_map_of_lt _ _ _ _ 0 ha2, getD_map_of_lt pw C a 0 0 ha, hz, hPow0,
      zero_div]

/-- C1 (amended): with at least TWO simulations from fresh tables, a
non-terminal root with at least one valid action, a positive depth limit,
and a power function behaving like the float `x ** (1/temp)` (zero at
zero, nonnegative, positive on positive counts), `getActionProb` returns
a vector over the full action space with
nonnegative entries summing to `1` and zero mass on every invalid root
action — for the `temp == 0` one-hot branch and the `temp != 0`
proportional branch alike. -/
theorem C1_action_distribution {S : Type} (g : Game S) (nnet : NNet S)
    (args : Args) (board : S) (temp : ℚ)
    (hSims : 2 ≤ args.numMCTSSims)
    (hMax : 1 ≤ args.maxMoves)
    (hNT : g.getGameEnded board = 0)
    (hLegal : ∃ j, j < g.getActionSize ∧ legalAt (g.getValidMoves board) j = true)
    (hPow0 : ∀ tp, args.powQ 0 tp = 0)
    (hPowNN : ∀ x tp, 0 ≤ args.powQ x tp)
    (hPowPos : ∀ x tp, 0 < x → 0 < args.powQ x tp) :
    (MCTS.getActionProb g nnet args emptyTables board temp).length =
      g.getActionSize ∧
    (∀ q ∈ MCTS.getActionProb g nnet args emptyTables board temp, 0 ≤ q) ∧
    (MCTS.getActionProb g nnet args emptyTables board temp).sum = 1 ∧
    (∀ a < g.getActionSize, legalAt (g.getValidMoves board) a = false →
      (MCTS.getActionProb g nnet args emptyTables board temp).getD a 0 = 0) := by
  obtain ⟨hEs1, hPs1, hVs1, hNsa1, hInv1⟩ :=
    search_empty_expands g nnet args board hMax hNT
  obtain ⟨j0, c0, hj0, hl0, hc0, hNsa2⟩ := search_progress g nnet args board
    (MCTS.search g nnet args emptyTables board 0).1 (g.getValidMoves board)
    hInv1 hMax hEs1 hPs1 hVs1 hLegal
  have hInv2 : TInv g (MCTS.search g nnet args
      (MCTS.search g nnet args emptyTables board 0).1 board 0).1 :=
    (searchAux_preserves g nnet args (args.maxMoves - 0)
      (MCTS.search g nnet args emptyTables board 0).1 board 0 hInv1).1
  have hVs2 : (MCTS.search g nnet args
      (MCTS.search g nnet args emptyTables board 0).1 board 0).1.Vs
      (g.stringRepresentation board) = some (g.getValidMoves board) :=
    (searchAux_preserves g nnet args (args.maxMoves - 0)
      (MCTS.search g nnet args emptyTables board 0).1 board 0 hInv1).2.1 _ _ hVs1
  obtain ⟨n2, hn2⟩ : ∃ n2, args.numMCTSSims = n2 + 2 :=
    ⟨args.numMCTSSims - 2, by omega⟩
  have hrun : runSims g nnet args args.numMCTSSims emptyTables board =
      runSims g nnet args n2 (MCTS.search g nnet args
        (MCTS.search g nnet args emptyTables board 0).1 board 0).1 board := by
    rw [hn2]
    rfl
  obtain ⟨hInvF, hMonoF, hVsF⟩ := runSims_facts g nnet args board n2
    (MCTS.search g nnet args
      (MCTS.search g nnet args emptyTables board 0).1 board 0).1 hInv2
  obtain ⟨cF, hcF, hccF⟩ :=
    hMonoF (g.stringRepresentation board, (j0 : ℤ)) c0 hNsa2
  rw [← hrun] at hcF
  have hVsFin : (runSims g nnet args args.numMCTSSims emptyTables board).Vs
      (g.stringRepresentation board) = some (g.getValidMoves board) := by
    rw [hrun]
    exact hVsF _ _ hVs2
  have hInvFin : TInv g (runSims g nnet args args.numMCTSSims emptyTables board) := by
    rw [hrun]
    exact hInvF
  have hIllNone : ∀ a : ℕ, a < g.getActionSize →
      legalAt (g.getValidMoves board) a = false →
      (runSims g nnet args args.numMCTSSims emptyTables board).Nsa
        (g.stringRepresentation board, (a : ℤ)) = none := by
    intro a ha hf
    cases hk : (runSims g nnet args args.numMCTSSims emptyTables board).Nsa
        (g.stringRepresentation board, (a : ℤ)) with
    | none => rfl
    | some m =>
        rcases hInvFin.nsaLegal _ _ (by rw [hk]; rfl) with h1 | ⟨j, h1, h2, mask, h3, h4⟩
        · exact absurd h1 (by omega)
        · have haj : a = j := by exact_mod_cast h1
          subst haj
          rw [hVsFin] at h3
          injection h3 with h3
          rw [← h3, hf] at h4
          exact absurd h4 (by simp)
  have hCget : ∀ a : ℕ, a < g.getActionSize →
      (rootCounts g nnet args emptyTables board).getD a 0 =
      ((runSims g nnet args args.numMCTSSims emptyTables board).Nsa
        (g.stringRepresentation board, (a : ℤ))).getD 0 :=
    fun a ha => rootCounts_getD g nnet args emptyTables board a ha
  have hClen : (rootCounts g nnet args emptyTables board).length =
      g.getActionSize := rootCounts_length g nnet args emptyTables board
  have hCj : 1 ≤ (rootCounts g nnet args emptyTables board).getD j0 0 := by
    rw [hCget j0 hj0, hcF]
    simpa using le_trans hc0 hccF
  have hCill : ∀ a < g.getActionSize, legalAt (g.getValidMoves board) a = false →
      (rootCounts g nnet args emptyTables board).getD a 0 = 0 := by
    intro a ha hf
    rw [hCget a ha, hIllNone a ha hf]
    rfl
  have hCne : rootCounts g nnet args emptyTables board ≠ [] := by
    intro hc
    rw [hc] at hClen
    simp at hClen
    omega
  by_cases ht : temp = 0
  · rw [getActionProb_temp_zero g nnet args emptyTables board temp ht]
    obtain ⟨hLen1, hNN1, hSum1, hZero1⟩ :=
      oneHot_facts (rootCounts g nnet args emptyTables board) hCne
    obtain ⟨hbLt, hbMax⟩ :=
      argmaxFirst_spec (rootCounts g nnet args emptyTables board) hCne
    have hbPos : 1 ≤ (rootCounts g nnet args emptyTables board).getD
        (argmaxFirst (rootCounts g nnet args emptyTables board)) 0 :=
      le_trans hCj (hbMax j0 (by omega))
    refine ⟨by rw [hLen1, hClen], hNN1, hSum1, ?_⟩
    intro a ha hf
    apply hZero1 a (by omega)
    intro hab
    rw [← hab] at hbPos
    rw [hCill a ha hf] at hbPos
    omega
  · rw [getActionProb_temp_ne g nnet args emptyTables board temp ht]
    obtain ⟨hLen1, hNN1, hSum1, hZero1⟩ :=
      powNorm_facts (rootCounts g nnet args emptyTables board)
        (fun x => args.powQ x temp) (hPow0 temp) (fun x => hPowNN x temp)
        (fun x => hPowPos x temp) j0 (by omega) hCj
    refine ⟨by rw [hLen1, hClen], hNN1, hSum1, ?_⟩
    intro a ha hf
    exact hZero1 a (by omega) (hCill a ha hf)

unseal Rat.mul Rat.add Rat.inv Rat.sub in
theorem C1_action_distribution_witness :
    (MCTS.getActionProb (unitGame [false, true]) (unitNNet [1/2, 1/2])
      (testArgs 2 2) emptyTables () 1).length =
      (unitGame [false, true]).getActionSize ∧
    (∀ q ∈ MCTS.getActionProb (unitGame [false, true]) (unitNNet [1/2, 1/2])
      (testArgs 2 2) emptyTables () 1, 0 ≤ q) ∧
    (MCTS.getActionProb (unitGame [false, true]) (unitNNet [1/2, 1/2])
      (testArgs 2 2) emptyTables () 1).sum = 1 ∧
    (∀ a < (unitGame [false, true]).getActionSize,
      legalAt ((unitGame [false, true]).getValidMoves ()) a = false →
      (MCTS.getActionProb (unitGame [false, true]) (unitNNet [1/2, 1/2])
        (testArgs 2 2) emptyTables () 1).getD a 0 = 0) :=
  C1_action_distribution (unitGame [false, true]) (unitNNet [1/2, 1/2])
    (testArgs 2 2) () 1 (by decide) (by decide) rfl
    ⟨1, by decide, by decide⟩ (fun _ => by simp [testArgs])
    (fun x _ => by simp [testArgs]) (fun x _ hx => by
      simp only [testArgs]
      exact_mod_cast hx)

unseal Rat.mul Rat.add Rat.inv Rat.sub in
/-- C1 counterexample to the claim as stated ("for every simulation budget
`n ≥ 1`"): with exactly one simulation the root has no edge statistics, so
at `temp = 0` the output is one-hot on `np.argmax` of the all-zero count
vector — index `0` — even though action `0` is invalid at the root. -/
theorem C1_counterexample :
    legalAt ((unitGame [false, true]).getValidMoves ()) 0 = false ∧
    (MCTS.getActionProb (unitGame [false, true]) (unitNNet [1/2, 1/2])
      (testArgs 1 5) emptyTables () 0).getD 0 0 = 1 := by
  constructor
  · decide
  · decide
